import Mathlib

/-!
Verification development for the disk-tree repository.

The definitions below are a shallow embedding of the scanner/aggregator
pipeline (src/disk_tree/find/index.py), the scan store (src/disk_tree/sqla/model.py)
and the query layer (src/disk_tree/server.py).  Machine integers are modelled
as Int (sizes, mtimes, counters never overflow in the source), pandas data
frames as lists of rows, SQL tables as lists of records, and fallible
operations as Except.
-/

namespace DiskTree

/-- os.path.dirname for relative slash-separated paths with no trailing slash:
the part before the last '/', or "" when there is no '/'. -/
def dirname (p : String) : String :=
  match p.toList.reverse.dropWhile (fun c => c ≠ '/') with
  | [] => ""
  | _ :: t => String.mk t.reverse

/-- Depth of a path as computed in find/index.py line 329:
'.' has depth 0, otherwise (number of slashes) + 1. -/
def depthOf (p : String) : Nat :=
  if p = "." then 0 else p.toList.count '/' + 1

/-- One record emitted by the walker (files_iter / s3_files_iter):
path relative to the scan root (the root itself is ""), allocated size in
bytes, mtime in epoch seconds, kind ("file" / "dir" / other), parent path
(dirname of path), absolute uri. -/
structure Rec where
  path : String
  size : Int
  mtime : Int
  kind : String
  parent : String
  uri : String
deriving Repr, DecidableEq

/-- One row of the aggregated table (a pandas DataFrame row in index()).
Raw walker rows get n_desc = 1 and n_children = 0 (index.py line 230);
depth is filled in at the very end (line 329).  Columns that pandas leaves
as NaN on intermediate frames (kind, uri) are modelled as "" and are never
read before being overwritten. -/
structure Row where
  path : String
  size : Int
  mtime : Int
  kind : String
  parent : String
  uri : String
  n_desc : Int
  n_children : Int
  depth : Nat
deriving Repr, DecidableEq

/-- index.py line 230: `dict(**e, n_desc=1, n_children=0)`. -/
def collect (e : Rec) : Row :=
  { path := e.path, size := e.size, mtime := e.mtime, kind := e.kind,
    parent := e.parent, uri := e.uri, n_desc := 1, n_children := 0, depth := 0 }

/-- Maximum of a list of Int; pandas .max() over a (nonempty) group. -/
def intMax : List Int → Int
  | [] => 0
  | x :: xs => xs.foldl max x

/-- Lexicographic comparison of char lists by code point, the order Python
and pandas use for str values. -/
def lexLe : List Char → List Char → Bool
  | [], _ => true
  | _ :: _, [] => false
  | a :: as, b :: bs => if a < b then true else if a = b then lexLe as bs else false

/-- Code-point lexicographic ≤ on strings. -/
def strLe (a b : String) : Bool := lexLe a.toList b.toList

/-- Insert into a ≤-sorted list of strings. -/
def insertStr (x : String) : List String → List String
  | [] => [x]
  | y :: ys => if strLe x y then x :: y :: ys else y :: insertStr x ys

/-- Sort strings ascending. -/
def sortStrs (l : List String) : List String := l.foldr insertStr []

/-- The sorted, de-duplicated group keys of a pandas groupby('path'). -/
def keysOf (l : List Row) : List String := (sortStrs (l.map (fun r => r.path))).dedup

/-- The re-keyed input of one level-loop iteration: drop rows with path "",
then set each row's path to its parent (index.py lines 269-272). -/
def rekey (cur0 : List Row) : List Row :=
  (cur0.filter (fun r => r.path ≠ "")).map (fun r => { r with path := r.parent })

/-- One aggregated group row of the level loop (index.py lines 273-285):
sum size and n_desc, take max mtime, n_children is the group size on the
first (leaf) pass and 0 afterwards; parent of a group is dirname(key). -/
def aggRow (cur : List Row) (level : Nat) (k : String) : Row :=
  let g := cur.filter (fun r => r.path = k)
  { path := k,
    size := (g.map (fun r => r.size)).sum,
    mtime := intMax (g.map (fun r => r.mtime)),
    n_desc := (g.map (fun r => r.n_desc)).sum,
    n_children := if level = 0 then (g.length : Int) else 0,
    parent := dirname k, kind := "", uri := "", depth := 0 }

/-- Body of one iteration of the level loop in index() (lines 268-287). -/
def groupAgg (cur0 : List Row) (level : Nat) : List Row :=
  (keysOf (rekey cur0)).map (aggRow (rekey cur0) level)

/-- The level loop of index() (lines 266-288), collecting the per-level
frames appended to dir_dfs.  The loop stops when nothing with a nonempty
path is left; fuel bounds the iteration count (dirname strictly shortens
paths, so maxPathLen + 1 steps always suffice). -/
def aggLevels : List Row → Nat → Nat → List (List Row)
  | _, _, 0 => []
  | cur, level, fuel + 1 =>
    if ((cur.filter (fun r => r.path ≠ "")).isEmpty : Bool) then []
    else
      let frame := groupAgg cur level
      frame :: aggLevels frame (level + 1) fuel

/-- Length of the longest path in a list of rows. -/
def maxPathLen (l : List Row) : Nat := l.foldr (fun r m => max r.path.length m) 0

/-- The synthetic root row for an empty scan (index.py lines 245-255 and
294-303): path ".", all stats zero, kind dir, parent "", uri = scan path. -/
def emptyRootRow (path0 : String) : Row :=
  { path := ".", size := 0, mtime := 0, kind := "dir", parent := "",
    uri := path0, n_desc := 0, n_children := 0, depth := 0 }

/-- One row of the final groupby over the concatenated dir frames
(index.py lines 305-315): per path, sum size / n_desc / n_children,
max mtime, kind "dir", parent = dirname(path). -/
def finalRow (dirsConcat : List Row) (k : String) : Row :=
  let g := dirsConcat.filter (fun r => r.path = k)
  { path := k,
    size := (g.map (fun r => r.size)).sum,
    mtime := intMax (g.map (fun r => r.mtime)),
    n_desc := (g.map (fun r => r.n_desc)).sum,
    n_children := (g.map (fun r => r.n_children)).sum,
    kind := "dir", parent := dirname k, uri := "", depth := 0 }

/-- The final groupby over the concatenation of all dir frames. -/
def finalGroup (dirsConcat : List Row) : List Row :=
  (keysOf dirsConcat).map (finalRow dirsConcat)

/-- index.py line 316: `dirs.loc[dirs.parent == '', 'parent'] = '.'`. -/
def fixTopParent (r : Row) : Row :=
  if r.parent = "" then { r with parent := "." } else r

/-- index.py line 317: `dirs.loc[dirs.path == '', ['path','parent']] = ['.','']`. -/
def fixRootPath (r : Row) : Row :=
  if r.path = "" then { r with path := ".", parent := "" } else r

/-- index.py line 318: uri = path0 for the root, path0/p otherwise. -/
def setUri (path0 : String) (r : Row) : Row :=
  { r with uri := if r.path = "." then path0 else path0 ++ "/" ++ r.path }

/-- Insertion into a list of rows sorted ascending by path. -/
def insertRow (x : Row) : List Row → List Row
  | [] => [x]
  | y :: ys => if strLe x.path y.path then x :: y :: ys else y :: insertRow x ys

/-- `df.sort_values('path')` (index.py line 324); deterministic here since
persisted tables have pairwise distinct paths. -/
def sortRows (l : List Row) : List Row := l.foldr insertRow []

/-- index.py line 329: fill in the depth column. -/
def withDepth (r : Row) : Row := { r with depth := depthOf r.path }

/-- The aggregator find.index (index.py lines 205-334), as a function of the
walker's record stream.  Empty stream: a single synthetic root row.
Otherwise: split into files and dirs, run the level loop, concatenate the
dir frames, final groupby, root/parent rewrites, uri column, concat with the
file rows, sort by path, add the depth column. -/
def index_df (recs : List Rec) (path0 : String) : List Row :=
  let raw := recs.map collect
  if raw.isEmpty then [emptyRootRow path0]
  else
    let files := raw.filter (fun r => r.kind = "file")
    let dirs0 := raw.filter (fun r => r.kind = "dir")
    let frames := aggLevels raw 0 (maxPathLen raw + 1)
    let dirsConcat := dirs0 ++ frames.flatten
    let dirs :=
      if dirsConcat.isEmpty then [emptyRootRow path0]
      else (((finalGroup dirsConcat).map fixTopParent).map fixRootPath).map (setUri path0)
    (sortRows (dirs ++ files)).map withDepth

/-- Root-stat extraction in Scan.create (sqla/model.py lines 144-153):
take the FIRST row with parent == "" in the persisted table and denormalise
its (size, n_children, n_desc) into the catalog row; None when no such row. -/
def rootStats (df : List Row) : Option Int × Option Int × Option Int :=
  match df.filter (fun r => r.parent = "") with
  | [] => (none, none, none)
  | r :: _ => (some r.size, some r.n_children, some r.n_desc)

/-- The children of a directory row within a persisted table, per the root
conventions the query layer itself uses (server.py line 668): for the root
".", rows with parent "." (directories) or parent "" and path ≠ "."
(root-level files); otherwise rows whose parent equals the directory's
path. -/
def childrenOf (T : List Row) (d : Row) : List Row :=
  if d.path = "." then
    T.filter (fun r => decide (r.parent = "." ∨ (r.parent = "" ∧ r.path ≠ ".")))
  else T.filter (fun r => decide (r.parent = d.path))

/-- Selector for the two columns the level loop aggregates by summation. -/
inductive AggCol where
  | sizeC
  | ndescC
deriving Repr, DecidableEq

/-- Read the selected column of a row. -/
def colOf : AggCol → Row → Int
  | .sizeC, r => r.size
  | .ndescC, r => r.n_desc

/-- One parsed line of `aws s3 ls --recursive`: mtime, size, key. -/
structure S3Entry where
  mtime : Int
  size : Int
  key : String
deriving Repr, DecidableEq

/-- The prefix-synthesis while-loop of s3_files_iter (index.py lines 61-73):
walk dirname-wise up from the key, collecting prefixes not seen before
(deepest first), stopping at "" or at an already-seen prefix.  Returns the
new prefixes in append order together with the updated seen set. -/
def s3DirsLoop : Nat → String → List String → List String × List String
  | 0, _, seen => ([], seen)
  | fuel + 1, cur, seen =>
    let cur' := dirname cur
    if seen.contains cur' then ([], seen)
    else
      let seen' := cur' :: seen
      if cur' = "" then ([cur'], seen')
      else
        let (rest, seen2) := s3DirsLoop fuel cur' seen'
        (cur' :: rest, seen2)

/-- s3_files_iter (index.py lines 35-91) for a bucket-root listing
(key0 = "", so every key's relpath is the key itself): for each listed key,
emit the not-yet-seen ancestor prefixes as dir records (size 0, mtime 0),
shallowest first, then the file record.  The root prefix "" is emitted with
parent "" (the source carries None there; that field is never read for the
root row). -/
def s3IterGo (bkt : String) : List S3Entry → List String → List Rec
  | [], _ => []
  | e :: rest, seen =>
    if e.key = "" then s3IterGo bkt rest seen
    else
      let (newDirs, seen') := s3DirsLoop (e.key.length + 1) e.key seen
      let dirRecs := newDirs.reverse.map (fun d =>
        { path := d, size := 0, mtime := 0, kind := "dir",
          parent := dirname d,
          uri := "s3://" ++ bkt ++ "/" ++ d : Rec })
      let fileRec : Rec :=
        { path := e.key, size := e.size, mtime := e.mtime, kind := "file",
          parent := dirname e.key, uri := "s3://" ++ bkt ++ "/" ++ e.key }
      dirRecs ++ (fileRec :: s3IterGo bkt rest seen')

/-- s3_files_iter applied to a whole listing of bucket `bkt`. -/
def s3Iter (bkt : String) (entries : List S3Entry) : List Rec :=
  s3IterGo bkt entries []

/-! ### Catalog and query layer (server.py, sqla/model.py) -/

/-- `str.rstrip('/')`. -/
def rstripSlash (s : String) : String :=
  String.mk (s.toList.reverse.dropWhile (fun c => c = '/')).reverse

/-- `str.lstrip('/')`. -/
def lstripSlash (s : String) : String :=
  String.mk (s.toList.dropWhile (fun c => c = '/'))

/-- A catalog row of the `scan` table.  The three denormalised root-stat
columns are nullable. -/
structure CatScan where
  id : Nat
  path : String
  time : Int
  blob : String
  size : Option Int
  n_children : Option Int
  n_desc : Option Int
deriving Repr, DecidableEq

/-- ASCII lower-casing of one character (code points 65-90 shift to 97-122),
as SQLite's LIKE applies to pattern and operand. -/
def lowerChar (c : Char) : Char :=
  if 65 ≤ c.toNat ∧ c.toNat ≤ 90 then Char.ofNat (c.toNat + 32) else c

/-- ASCII lower-casing of a string. -/
def asciiLower (s : String) : String := String.mk (s.toList.map lowerChar)

/-- SQLite `path LIKE pre || '%' ESCAPE ...` with pre fully escaped:
ASCII-case-insensitive prefix test. -/
def likeStarts (pre s : String) : Bool :=
  (asciiLower pre).toList.isPrefixOf (asciiLower s).toList

/-- The direct-child filter of the fresher-scan query (server.py lines
786-801): `path LIKE pre || '%'` AND NOT `path LIKE pre || '%/%'`, i.e. the
path extends pre with no further slash. -/
def likeDirectChild (pre s : String) : Bool :=
  likeStarts pre s && !(((asciiLower s).toList.drop (asciiLower pre).toList.length).contains '/')

/-- Rows eligible for fresher-child patching: direct children of the uri
prefix whose scan time is strictly greater than the serving scan's. -/
def isFresherCand (uriPre : String) (t : Int) (s : CatScan) : Bool :=
  likeDirectChild uriPre s.path && decide (t < s.time)

/-- The inner `GROUP BY path, MAX(time)` join: keep the matching rows whose
time is maximal among matching rows of the same path. -/
def fresherLatest (db : List CatScan) (uriPre : String) (t : Int) : List CatScan :=
  db.filter (fun s => isFresherCand uriPre t s &&
    db.all (fun s' => !(isFresherCand uriPre t s' && s'.path == s.path) || decide (s'.time ≤ s.time)))

/-- The value stored in the fresher_stats dict for one child path. -/
structure FresherStats where
  size : Int
  n_desc : Option Int
  n_children : Option Int
  scan_time : Int
deriving Repr, DecidableEq

/-- Python dict assignment on an association list: replace or append. -/
def insertAssoc (k : String) (v : FresherStats) :
    List (String × FresherStats) → List (String × FresherStats)
  | [] => [(k, v)]
  | (k', v') :: rest => if k' = k then (k, v) :: rest else (k', v') :: insertAssoc k v rest

/-- server.py lines 804-814: build fresher_stats, skipping rows whose
denormalised size is NULL. -/
def buildFresherStats (rows : List CatScan) : List (String × FresherStats) :=
  rows.foldl (fun m s =>
    match s.size with
    | some sz => insertAssoc s.path ⟨sz, s.n_desc, s.n_children, s.time⟩ m
    | none => m) []

/-- One entry of the `children` payload of get_scan, with the fields the
patching step reads and writes. -/
structure ChildOut where
  path : String
  uri : String
  size : Int
  mtime : Option Int
  n_desc : Option Int
  n_children : Option Int
  scan_time : Option Int
  scanned : Bool
  patched : Bool
deriving Repr, DecidableEq

/-- server.py lines 817-826: patch one child from the fresher_stats dict
keyed by its uri; on a hit, size/n_desc/n_children come from the child
scan's denormalised stats, mtime becomes None, and patched is set. -/
def patchOne (stats : List (String × FresherStats)) (c : ChildOut) : ChildOut :=
  match stats.lookup c.uri with
  | some st =>
    { c with size := st.size, mtime := none, n_desc := st.n_desc,
             n_children := st.n_children, scan_time := some st.scan_time, patched := true }
  | none => c

/-- The fresher-child patching phase of get_scan (server.py lines 780-826)
applied to the children list, given the catalog and the serving scan's time. -/
def patchFresher (db : List CatScan) (uri : String) (scanTime : Int)
    (children : List ChildOut) : List ChildOut :=
  let uriPre := rstripSlash uri ++ "/"
  let stats := buildFresherStats (fresherLatest db uriPre scanTime)
  children.map (patchOne stats)

/-! #### compare_scans (server.py lines 916-1128) -/

/-- `path.split('/')[-1]`: the last slash-separated component. -/
def lastComp (p : String) : String :=
  match (p.splitOn "/").reverse with
  | [] => ""
  | x :: _ => x

/-- get_children inside compare_scans (server.py lines 959-991): resolve the
uri against the scan root, load the blob slice at exactly depth_offset +
depth_limit (min = max pushdown on the stored depth column), and keep the
rows whose parent is the relative prefix, paired with their rel_path. -/
def getChildrenC (uri scanPath : String) (tbl : List Row) (depth_limit : Nat) :
    List (Row × String) :=
  let relPre := if scanPath = uri then "" else lstripSlash (uri.drop scanPath.length)
  let depthOff := if scanPath = uri then 0 else relPre.toList.count '/' + 1
  let target := depthOff + depth_limit
  let df := tbl.filter (fun r => r.depth = target)
  if scanPath = uri then
    (df.filter (fun r => r.parent = ".")).map (fun r => (r, r.path))
  else
    (df.filter (fun r => r.parent = relPre)).map (fun r => (r, lastComp r.path))

/-- One row of the compare response.  Added/removed rows carry no
n_desc_delta / olds (the source only sets those keys on common rows). -/
structure CmpRow where
  path : String
  uri : String
  status : String
  size_delta : Int
  size_old : Option Int
  n_desc_delta : Option Int
  n_desc_old : Option Int
deriving Repr, DecidableEq

/-- The summary block of the compare response. -/
structure CmpSummary where
  added : Nat
  removed : Nat
  changed : Nat
  unchanged : Nat
  total_delta : Int
deriving Repr, DecidableEq

/-- The parts of the compare response the claims quantify over. -/
structure CmpResult where
  rows : List CmpRow
  summary : CmpSummary
deriving Repr, DecidableEq

/-- First child with the given rel_path (`children[children['rel_path'] ==
rel_path].iloc[0]`). -/
def findRow (l : List (Row × String)) (rp : String) : Option Row :=
  (l.find? (fun x => x.2 = rp)).map (fun x => x.1)

/-- Stable insertion for sorting by |size_delta| descending. -/
def insertByAbs (x : CmpRow) : List CmpRow → List CmpRow
  | [] => [x]
  | y :: ys => if x.size_delta.natAbs ≥ y.size_delta.natAbs then x :: y :: ys
               else y :: insertByAbs x ys

/-- `results.sort(key=|size_delta|, reverse=True)` (stable). -/
def sortByAbsDelta (l : List CmpRow) : List CmpRow := l.foldr insertByAbs []

/-- The set algebra and row synthesis of compare_scans (server.py lines
996-1123).  Sets of child names are modelled as first-occurrence-deduped
lists; common rows look up the first matching row on each side (the source
indexes iloc[0], which cannot miss for a name in both sets). -/
def compareCore (uriP : String) (ch1 ch2 : List (Row × String)) : CmpResult :=
  let paths1 := (ch1.map (fun x => x.2)).dedup
  let paths2 := (ch2.map (fun x => x.2)).dedup
  let added := paths2.filter (fun p => decide (p ∉ paths1))
  let removed := paths1.filter (fun p => decide (p ∉ paths2))
  let common := paths1.filter (fun p => decide (p ∈ paths2))
  let addedRows := added.filterMap (fun rp => (findRow ch2 rp).map (fun r =>
    ({ path := rp, uri := uriP ++ rp, status := "added", size_delta := r.size,
       size_old := none, n_desc_delta := none, n_desc_old := none } : CmpRow)))
  let removedRows := removed.filterMap (fun rp => (findRow ch1 rp).map (fun r =>
    ({ path := rp, uri := uriP ++ rp, status := "removed", size_delta := -r.size,
       size_old := none, n_desc_delta := none, n_desc_old := none } : CmpRow)))
  let commonRows := common.filterMap (fun rp =>
    match findRow ch1 rp, findRow ch2 rp with
    | some r1, some r2 =>
      let sd := r2.size - r1.size
      let nd := r2.n_desc - r1.n_desc
      some ({ path := rp, uri := uriP ++ rp,
              status := if sd ≠ 0 ∨ nd ≠ 0 then "changed" else "unchanged",
              size_delta := sd, size_old := some r1.size,
              n_desc_delta := some nd, n_desc_old := some r1.n_desc } : CmpRow)
    | _, _ => none)
  let results := sortByAbsDelta (addedRows ++ removedRows ++ commonRows)
  { rows := results,
    summary :=
      { added := added.length, removed := removed.length,
        changed := (results.filter (fun r => r.status = "changed")).length,
        unchanged := (results.filter (fun r => r.status = "unchanged")).length,
        total_delta := (results.map (fun r => r.size_delta)).sum } }

/-- compare_scans end to end for two resolved catalog rows: normalise the
uri, load each scan's blob through the store, take each side's children of
the uri, and run the comparison. -/
def compare_scans (uri : String) (scan1 scan2 : CatScan) (store : String → List Row)
    (depth : Nat) : CmpResult :=
  let u := let r := rstripSlash uri; if r = "" then "/" else r
  let ch1 := getChildrenC u scan1.path (store scan1.blob) depth
  let ch2 := getChildrenC u scan2.path (store scan2.blob) depth
  compareCore (rstripSlash u ++ "/") ch1 ch2

/-! #### Scan.gc (sqla/model.py lines 177-193) -/

/-- A catalog row as Scan.gc reads it. -/
structure GcRow where
  id : Nat
  path : String
  time : Int
  blob : String
deriving Repr, DecidableEq

/-- The state gc acts on: the scan table and the set of existing blob
files. -/
structure GcState where
  scans : List GcRow
  fs : List String
deriving Repr, DecidableEq

/-- The per-row loop of Scan.gc: `os.stat(blob)` (raises FileNotFoundError
when the blob is missing, aborting the loop with rows so far already
deleted), then delete the catalog row, commit, and unlink the blob.  The
error carries the state at the failure point. -/
def gcGo : List GcRow → GcState → Except (String × GcState) GcState
  | [], st => .ok st
  | s :: rest, st =>
    if st.fs.contains s.blob then
      gcGo rest { scans := st.scans.filter (fun r => decide (r.id ≠ s.id)),
                  fs := st.fs.erase s.blob }
    else
      .error ("stat: " ++ s.blob ++ ": No such file or directory", st)

/-- Scan.gc(path, cutoff): snapshot the rows for this path older than the
cutoff, then delete them one by one. -/
def Scan_gc (st : GcState) (path : String) (cutoff : Int) : Except (String × GcState) GcState :=
  gcGo (st.scans.filter (fun s => decide (s.path = path ∧ s.time < cutoff))) st

/-! #### ScanProgress.finish (sqla/model.py lines 66-72) -/

/-- A scan_progress row. -/
structure ProgressRow where
  path : String
  pid : Nat
  items_found : Int
  error_count : Int
  status : String
deriving Repr, DecidableEq

/-- Progress table plus everything finish() could log. -/
structure ProgressState where
  rows : List ProgressRow
  log : List String
deriving Repr, DecidableEq

/-- ScanProgress.finish(path, status): delete the row for the path and
commit.  The status argument is not read: nothing is logged and no terminal
row is written. -/
def ScanProgress_finish (path status : String) (st : ProgressState) : ProgressState :=
  { st with rows := st.rows.filter (fun r => decide (r.path ≠ path)) }

/-- What a poller sees for a path: the status of its progress row, if any
(absence is terminal). -/
def observedStatus (st : ProgressState) (path : String) : Option String :=
  (st.rows.find? (fun r => decide (r.path = path))).map (fun r => r.status)

/-! #### Object-store listing timeouts (server.py lines 239-300, 332-389) -/

/-- Outcome of the `aws s3 ls` subprocess for the bucket list: either it
completed (return code, stderr, parsed bucket lines) or subprocess.run
raised TimeoutExpired after the 30 s wall clock. -/
inductive BucketsOutcome where
  | completed (rc : Int) (stderr : String) (buckets : List (String × String))
  | timeoutExpired (msg : String)
deriving Repr, DecidableEq

/-- Body of the /api/s3/buckets response. -/
inductive BucketsResp where
  | ok (buckets : List (String × String))
  | err (msg : String)
deriving Repr, DecidableEq

/-- list_s3_buckets (server.py lines 282-300), on a cache miss: a timeout is
caught and surfaced as HTTP 504 with a fixed message; a nonzero exit raises
RuntimeError(stderr or fallback) which the generic handler turns into 500;
otherwise 200 with the parsed buckets. -/
def list_s3_buckets_route (p : BucketsOutcome) : Nat × BucketsResp :=
  match p with
  | .timeoutExpired _ => (504, .err "Timeout listing buckets")
  | .completed rc errS bs =>
    if rc ≠ 0 then (500, .err (if errS = "" then "Failed to list buckets" else errS))
    else (200, .ok bs)

/-- One parsed child of a prefix listing. -/
structure S3Child where
  path : String
  uri : String
  size : Option Int
  mtime : Option Int
  kind : String
deriving Repr, DecidableEq

/-- Outcome of the `aws s3 ls <uri>/` subprocess for a prefix listing,
with the lines already parsed into child records. -/
inductive ChildrenOutcome where
  | completed (rc : Int) (entries : List S3Child)
  | timeoutExpired (msg : String)
deriving Repr, DecidableEq

/-- list_s3_children (server.py lines 332-389): the whole body sits in a
`try/except Exception: return []`, so a TimeoutExpired (like any failure,
and like a nonzero exit) yields a plain empty child list; there is no error
channel in the return type. -/
def list_s3_children (p : ChildrenOutcome) : List S3Child :=
  match p with
  | .timeoutExpired _ => []
  | .completed rc entries => if rc ≠ 0 then [] else entries

/-- The chain of iterated dirnames of a path, ending at "" (inclusive);
empty for the root path "". -/
def chainN : Nat → String → List String
  | 0, _ => []
  | fuel + 1, p => if p = "" then [] else dirname p :: chainN fuel (dirname p)

def chain (p : String) : List String := chainN p.length p

def gcStMissing : GcState := ⟨[⟨1, "/p", 5, "blob1"⟩], []⟩

def gcStW : GcState := ⟨[⟨1, "/p", 5, "b1"⟩, ⟨2, "/p", 20, "b2"⟩, ⟨3, "/q", 1, "b3"⟩], ["b1", "b3"]⟩

/-! ### C9 theorems -/

def progStRunning : ProgressState := ⟨[⟨"/p", 42, 100, 0, "running"⟩], []⟩

def c5db : List CatScan :=
  [⟨1, "/p/child1", 10, "b1", some 200, some 1, some 2⟩,
   ⟨2, "/p/child2/x", 10, "b2", some 7, some 0, some 1⟩,
   ⟨3, "/p/child2", 3, "b3", some 9, some 1, some 1⟩]

def c5children : List ChildOut :=
  [⟨"child1", "/p/child1", 100, some 5, some 1, some 0, some 0, true, false⟩,
   ⟨"child2", "/p/child2", 900, some 9, some 1, some 0, some 0, true, false⟩]

/-! ### Concrete scan tables for the aggregator claims -/

/-- Listing of a bucket with keys a/b and c: the path-sorted table puts the
depth-2 row a/b before the depth-1 row c. -/
def exListingAC : List Rec := s3Iter "bkt" [⟨10, 3, "a/b"⟩, ⟨20, 5, "c"⟩]

/-- The table the aggregator produces (and Scan.create persists as-is) for
exListingAC. -/
def exTableAC : List Row := index_df exListingAC "s3://bkt"

/-- Listing with a root-level key !a whose name sorts before ".". -/
def exListingBang : List Rec := s3Iter "bkt" [⟨10, 5, "!a"⟩, ⟨20, 7, "b"⟩]

/-- The persisted table for exListingBang. -/
def exTableBang : List Row := index_df exListingBang "s3://bkt"

/-- Listing with a single root-level file f. -/
def exListingF : List Rec := s3Iter "bkt" [⟨10, 5, "f"⟩]

/-- The persisted table for exListingF. -/
def exTableF : List Row := index_df exListingF "s3://bkt"

/-- Listing with one nested key d/x and one root-level key f. -/
def exListingDF : List Rec := s3Iter "bkt" [⟨10, 3, "d/x"⟩, ⟨20, 5, "f"⟩]

/-- The persisted table for exListingDF. -/
def exTableDF : List Row := index_df exListingDF "s3://bkt"

/-- Sum of a column over the rekeyed input rows with a given key. -/
def colSum (c : AggCol) (l : List Row) : Int := (l.map (colOf c)).sum

/-! ### Stage 4a: named pieces of index_df and key characterization -/

def rawOf (recs : List Rec) : List Row := recs.map collect

def dirs0Of (recs : List Rec) : List Row := (rawOf recs).filter (fun r => r.kind = "dir")

def filesOf (recs : List Rec) : List Row := (rawOf recs).filter (fun r => r.kind = "file")

def framesJoin (recs : List Rec) : List Row :=
  (aggLevels (rawOf recs) 0 (maxPathLen (rawOf recs) + 1)).flatten

def dirsConcatOf (recs : List Rec) : List Row := dirs0Of recs ++ framesJoin recs

def dirRowOf (recs : List Rec) (path0 k : String) : Row :=
  setUri path0 (fixRootPath (fixTopParent (finalRow (dirsConcatOf recs) k)))

def dirChildKeys (recs : List Rec) (k : String) : List String :=
  (keysOf (dirsConcatOf recs)).filter (fun k2 => decide (k2 ≠ "" ∧ dirname k2 = k))

def fileChildRows (recs : List Rec) (k : String) : List Row :=
  (filesOf recs).filter (fun r => decide (r.path ≠ "" ∧ r.parent = k))

/-! ### Concrete witness input for the aggregator claims -/

def recsW : List Rec :=
  [ ⟨"", 100, 50, "dir", "", "s3://bkt"⟩,
    ⟨"a", 10, 5, "dir", "", "s3://bkt/a"⟩,
    ⟨"a/b", 3, 7, "file", "a", "s3://bkt/a/b"⟩,
    ⟨"c", 5, 9, "file", "", "s3://bkt/c"⟩ ]

def rootRowW : Row :=
  ⟨".", 118, 50, "dir", "", "s3://bkt", 4, 2, 0⟩

/-! ### Path lemmas -/

theorem dirname_eq_match (p : String) : dirname p =
    (match p.toList.reverse.dropWhile (fun c => c ≠ '/') with
     | [] => ""
     | _ :: t => String.mk t.reverse) := rfl

theorem dirname_length_lt (p : String) (h : p ≠ "") : (dirname p).length < p.length := by
  have hp : 0 < p.length := by
    rcases p with ⟨data⟩
    cases data with
    | nil => exact absurd rfl h
    | cons c t => simp [String.length]
  rw [dirname_eq_match]
  cases hdw : p.toList.reverse.dropWhile (fun c => c ≠ '/') with
  | nil => exact hp
  | cons c t =>
    have hsub : (c :: t).Sublist p.toList.reverse := by
      rw [← hdw]; exact List.dropWhile_sublist _
    have hle : (c :: t).length ≤ p.toList.reverse.length := hsub.length_le
    simp only [List.length_cons, List.length_reverse] at hle
    show (String.mk t.reverse).length < p.length
    have h1 : (String.mk t.reverse).length = t.length := by simp [String.length]
    have h2 : p.toList.length = p.length := rfl
    omega

theorem string_length_zero {p : String} (h : p.length = 0) : p = "" := by
  rcases p with ⟨data⟩
  cases data with
  | nil => rfl
  | cons c t => exact absurd h (by simp [String.length])

theorem string_length_pos {p : String} (h : p ≠ "") : 0 < p.length := by
  rcases p with ⟨data⟩
  cases data with
  | nil => exact absurd rfl h
  | cons c t => simp [String.length]

theorem chainN_succ_eq : ∀ (fuel : Nat) (p : String), p.length ≤ fuel →
    chainN (fuel + 1) p = chainN fuel p := by
  intro fuel
  induction fuel with
  | zero =>
    intro p h
    have h0 : p = "" := string_length_zero (by omega)
    subst h0
    rfl
  | succ fuel ih =>
    intro p h
    by_cases hp : p = ""
    · subst hp
      rfl
    · show (if p = "" then [] else dirname p :: chainN (fuel + 1) (dirname p))
        = (if p = "" then [] else dirname p :: chainN fuel (dirname p))
      rw [if_neg hp, if_neg hp]
      congr 1
      apply ih
      have := dirname_length_lt p hp
      omega

theorem chainN_ge (fuel : Nat) (p : String) (h : p.length ≤ fuel) :
    chainN fuel p = chain p := by
  unfold chain
  induction fuel with
  | zero =>
    have h0 : p.length = 0 := by omega
    rw [h0]
  | succ fuel ih =>
    by_cases hf : p.length ≤ fuel
    · rw [chainN_succ_eq fuel p hf, ih hf]
    · have hlen : p.length = fuel + 1 := by omega
      rw [hlen]

theorem chain_eq_nil : chain "" = [] := rfl

theorem chain_eq_cons {p : String} (h : p ≠ "") :
    chain p = dirname p :: chain (dirname p) := by
  have h0 : 0 < p.length := string_length_pos h
  obtain ⟨m, hm⟩ : ∃ m, p.length = m + 1 := ⟨p.length - 1, by omega⟩
  show chainN p.length p = _
  rw [hm]
  show (if p = "" then [] else dirname p :: chainN m (dirname p)) = _
  rw [if_neg h]
  congr 1
  apply chainN_ge
  have := dirname_length_lt p h
  omega

theorem length_lt_of_mem_chain {p k : String} (hk : k ∈ chain p) : k.length < p.length := by
  by_cases hp : p = ""
  · rw [hp, chain_eq_nil] at hk; cases hk
  · rw [chain_eq_cons hp] at hk
    rcases List.mem_cons.mp hk with h | h
    · subst h; exact dirname_length_lt p hp
    · exact lt_trans (length_lt_of_mem_chain h) (dirname_length_lt p hp)
termination_by p.length
decreasing_by exact dirname_length_lt p hp

theorem ne_of_mem_chain {k p : String} (hk : k ∈ chain p) : k ≠ p := by
  intro h; subst h; exact lt_irrefl _ (length_lt_of_mem_chain hk)

theorem chain_trans {p x k : String} (hk : k ∈ chain p) (hx : x ∈ chain k) : x ∈ chain p := by
  by_cases hp : p = ""
  · rw [hp, chain_eq_nil] at hk; cases hk
  · rw [chain_eq_cons hp] at hk ⊢
    rcases List.mem_cons.mp hk with h | h
    · subst h; exact List.mem_cons_of_mem _ hx
    · exact List.mem_cons_of_mem _ (chain_trans h hx)
termination_by p.length
decreasing_by exact dirname_length_lt p hp

theorem mem_chain_ne_empty {k p : String} (hk : k ∈ chain p) : p ≠ "" := by
  intro h; subst h; rw [chain_eq_nil] at hk; cases hk

theorem dirname_mem_chain {p : String} (h : p ≠ "") : dirname p ∈ chain p := by
  rw [chain_eq_cons h]; exact List.mem_cons_self _ _

/-- Counting the chain elements whose dirname is k: together with the head
case, each contributor appears exactly once on the chain. -/
theorem countP_chain_dirname (k : String) (p : String) (hp : p ≠ "") :
    (List.countP (fun k' => decide (k' ≠ "" ∧ dirname k' = k)) (chain p))
      + (if dirname p = k then 1 else 0)
    = if k ∈ chain p then 1 else 0 := by
  rw [chain_eq_cons hp, List.countP_cons]
  by_cases hdempty : dirname p = ""
  · have h1 : (decide (dirname p ≠ "" ∧ dirname (dirname p) = k)) = false := by
      simp [hdempty]
    rw [hdempty, chain_eq_nil] at *
    simp only [List.countP_nil, h1, Bool.false_eq_true, if_false, Nat.zero_add, Nat.add_zero]
    by_cases hk : k = ""
    · subst hk; simp
    · have h2 : ¬ (("" : String) = k) := fun h => hk h.symm
      have h3 : k ∉ [""] := by simp [hk]
      simp [h2, h3, hk]
  · have ihd := countP_chain_dirname k (dirname p) hdempty
    have hpredeq : (decide (dirname p ≠ "" ∧ dirname (dirname p) = k))
        = decide (dirname (dirname p) = k) := by
      rw [decide_eq_decide]
      constructor
      · rintro ⟨_, h⟩; exact h
      · intro h; exact ⟨hdempty, h⟩
    rw [hpredeq]
    simp only [decide_eq_true_eq]
    simp only [List.mem_cons]
    by_cases hddk : dirname (dirname p) = k
    · rw [if_pos hddk] at ihd ⊢
      by_cases hmem : k ∈ chain (dirname p)
      · rw [if_pos hmem] at ihd
        by_cases hdk : dirname p = k
        · exact absurd (hdk ▸ hmem) (fun h => (ne_of_mem_chain h) rfl)
        · rw [if_neg hdk, if_pos (Or.inr hmem)]
          omega
      · rw [if_neg hmem] at ihd
        omega
    · rw [if_neg hddk] at ihd ⊢
      by_cases hmem : k ∈ chain (dirname p)
      · rw [if_pos hmem] at ihd
        by_cases hdk : dirname p = k
        · exact absurd (hdk ▸ hmem) (fun h => (ne_of_mem_chain h) rfl)
        · rw [if_neg hdk, if_pos (Or.inr hmem)]
          omega
      · rw [if_neg hmem] at ihd
        by_cases hdk : dirname p = k
        · rw [if_pos hdk, if_pos (Or.inl hdk.symm)]
          omega
        · rw [if_neg hdk, if_neg (by rintro (h | h); exact hdk h.symm; exact hmem h)]
          omega
termination_by p.length
decreasing_by exact dirname_length_lt p hp

/-! ### Generic list lemmas -/

theorem mem_insertStr {x y : String} {l : List String} :
    y ∈ insertStr x l ↔ y = x ∨ y ∈ l := by
  induction l with
  | nil => simp [insertStr]
  | cons a l ih =>
    unfold insertStr
    by_cases h : strLe x a
    · simp [h, List.mem_cons]
    · simp [h, List.mem_cons, ih]
      tauto

theorem mem_sortStrs {y : String} {l : List String} : y ∈ sortStrs l ↔ y ∈ l := by
  induction l with
  | nil => simp [sortStrs]
  | cons a l ih =>
    simp only [sortStrs, List.foldr_cons, List.mem_cons]
    rw [show List.foldr insertStr [] l = sortStrs l from rfl] at *
    rw [mem_insertStr, ih]

theorem keysOf_nodup (l : List Row) : (keysOf l).Nodup := List.nodup_dedup _

theorem mem_keysOf {k : String} {l : List Row} :
    k ∈ keysOf l ↔ ∃ r ∈ l, r.path = k := by
  unfold keysOf
  simp [List.mem_dedup, mem_sortStrs, List.mem_map]

theorem insertRow_perm (x : Row) (l : List Row) : (insertRow x l).Perm (x :: l) := by
  induction l with
  | nil => simp [insertRow]
  | cons a l ih =>
    unfold insertRow
    by_cases h : strLe x.path a.path
    · simp [h]
    · simp only [h, Bool.false_eq_true, if_false]
      exact ((ih.cons a).trans (List.Perm.swap x a l))

theorem sortRows_perm (l : List Row) : (sortRows l).Perm l := by
  induction l with
  | nil => simp [sortRows]
  | cons a l ih =>
    simp only [sortRows, List.foldr_cons]
    rw [show List.foldr insertRow [] l = sortRows l from rfl]
    exact (insertRow_perm a (sortRows l)).trans (ih.cons a)

theorem insertByAbs_perm (x : CmpRow) (l : List CmpRow) : (insertByAbs x l).Perm (x :: l) := by
  induction l with
  | nil => simp [insertByAbs]
  | cons a l ih =>
    unfold insertByAbs
    by_cases h : x.size_delta.natAbs ≥ a.size_delta.natAbs
    · simp [h]
    · simp only [if_neg h]
      exact ((ih.cons a).trans (List.Perm.swap x a l))

theorem sortByAbsDelta_perm (l : List CmpRow) : (sortByAbsDelta l).Perm l := by
  induction l with
  | nil => simp [sortByAbsDelta]
  | cons a l ih =>
    simp only [sortByAbsDelta, List.foldr_cons]
    rw [show List.foldr insertByAbs [] l = sortByAbsDelta l from rfl]
    exact (insertByAbs_perm a (sortByAbsDelta l)).trans (ih.cons a)

theorem le_foldl_max : ∀ (xs : List Int) (x m : Int), m ∈ x :: xs → m ≤ xs.foldl max x := by
  intro xs
  induction xs with
  | nil => intro x m hm; simp at hm; simp [hm]
  | cons y ys ih =>
    intro x m hm
    simp only [List.foldl_cons]
    rcases List.mem_cons.mp hm with h | h
    · subst h
      exact le_trans (le_max_left m y) (ih (max m y) (max m y) (List.mem_cons_self _ _))
    · rcases List.mem_cons.mp h with h2 | h2
      · subst h2
        exact le_trans (le_max_right x m) (ih (max x m) (max x m) (List.mem_cons_self _ _))
      · exact ih (max x y) m (List.mem_cons_of_mem _ h2)

theorem foldl_max_mem : ∀ (xs : List Int) (x : Int), xs.foldl max x ∈ x :: xs := by
  intro xs
  induction xs with
  | nil => intro x; simp
  | cons y ys ih =>
    intro x
    simp only [List.foldl_cons]
    rcases List.mem_cons.mp (ih (max x y)) with h | h
    · rcases max_choice x y with hm | hm <;> rw [hm] at h ⊢ <;> simp [h]
    · simp [List.mem_cons_of_mem _ h]

theorem intMax_mem {l : List Int} (h : l ≠ []) : intMax l ∈ l := by
  match l with
  | x :: xs => exact foldl_max_mem xs x

theorem le_intMax {m : Int} {l : List Int} (h : m ∈ l) : m ≤ intMax l := by
  match l with
  | x :: xs => exact le_foldl_max xs x m h

theorem intMax_eq_of_cofinal {l₁ l₂ : List Int}
    (h₁ : ∀ m ∈ l₁, ∃ m' ∈ l₂, m ≤ m') (h₂ : ∀ m ∈ l₂, ∃ m' ∈ l₁, m ≤ m') :
    intMax l₁ = intMax l₂ := by
  rcases eq_or_ne l₁ [] with h | h
  · subst h
    rcases eq_or_ne l₂ [] with h' | h'
    · simp [h']
    · rcases h₂ (intMax l₂) (intMax_mem h') with ⟨m', hm', _⟩
      cases hm'
  · have h' : l₂ ≠ [] := by
      rcases h₁ (intMax l₁) (intMax_mem h) with ⟨m', hm', _⟩
      intro hnil; rw [hnil] at hm'; cases hm'
    apply le_antisymm
    · rcases h₁ (intMax l₁) (intMax_mem h) with ⟨m', hm', hle⟩
      exact le_trans hle (le_intMax hm')
    · rcases h₂ (intMax l₂) (intMax_mem h') with ⟨m', hm', hle⟩
      exact le_trans hle (le_intMax hm')

theorem intMax_perm {l₁ l₂ : List Int} (h : l₁.Perm l₂) : intMax l₁ = intMax l₂ :=
  intMax_eq_of_cofinal
    (fun m hm => ⟨m, h.mem_iff.mp hm, le_refl m⟩)
    (fun m hm => ⟨m, h.mem_iff.mpr hm, le_refl m⟩)

/-! ### gc lemmas -/

theorem gcGo_ok (l : List GcRow) (st : GcState)
    (hblob : ∀ s ∈ l, s.blob ∈ st.fs)
    (hnd : (l.map (fun s => s.blob)).Nodup)
    (hfsnd : st.fs.Nodup) :
    gcGo l st = .ok ⟨st.scans.filter (fun r => decide (r.id ∉ l.map (fun s => s.id))),
                     st.fs.filter (fun b => decide (b ∉ l.map (fun s => s.blob)))⟩ := by
  induction l generalizing st with
  | nil =>
    have h1 : st.scans.filter (fun r => decide (r.id ∉ ([] : List GcRow).map (fun s => s.id)))
        = st.scans := by simp
    have h2 : st.fs.filter (fun b => decide (b ∉ ([] : List GcRow).map (fun s => s.blob)))
        = st.fs := by simp
    rw [h1, h2]
    rfl
  | cons s rest ih =>
    have hc : st.fs.contains s.blob = true :=
      List.elem_iff.mpr (hblob s (List.mem_cons_self _ _))
    simp only [gcGo, hc, if_true]
    have hnd' : (rest.map (fun s => s.blob)).Nodup := (List.nodup_cons.mp hnd).2
    have hblob' : ∀ x ∈ rest, x.blob ∈ (st.fs.erase s.blob) := by
      intro x hx
      have hne : x.blob ≠ s.blob := by
        intro h
        have hm : x.blob ∈ rest.map (fun s => s.blob) := List.mem_map_of_mem _ hx
        rw [h] at hm
        exact (List.nodup_cons.mp hnd).1 hm
      exact (List.mem_erase_of_ne hne).mpr (hblob x (List.mem_cons_of_mem _ hx))
    have hfsnd' : (st.fs.erase s.blob).Nodup := hfsnd.erase _
    rw [ih { scans := st.scans.filter (fun r => decide (r.id ≠ s.id)),
             fs := st.fs.erase s.blob } hblob' hnd' hfsnd']
    have hscans2 : (st.scans.filter (fun r => decide (r.id ≠ s.id))).filter
          (fun r => decide (r.id ∉ rest.map (fun s => s.id)))
        = st.scans.filter (fun r => decide (r.id ∉ (s :: rest).map (fun s => s.id))) := by
      rw [List.filter_filter]
      apply List.filter_congr
      intro r _
      simp only [List.map_cons, List.mem_cons]
      by_cases h1 : r.id = s.id <;> by_cases h2 : r.id ∈ rest.map (fun s => s.id) <;>
        simp [h1, h2]
    have hfs2 : (st.fs.erase s.blob).filter
          (fun b => decide (b ∉ rest.map (fun s => s.blob)))
        = st.fs.filter (fun b => decide (b ∉ (s :: rest).map (fun s => s.blob))) := by
      rw [List.Nodup.erase_eq_filter hfsnd s.blob, List.filter_filter]
      apply List.filter_congr
      intro b _
      simp only [List.map_cons, List.mem_cons]
      by_cases h1 : b = s.blob <;> by_cases h2 : b ∈ rest.map (fun s => s.blob) <;>
        simp [h1, h2]
    rw [hscans2, hfs2]

/-- C7, amended: when every stale row's blob exists on the (duplicate-free)
filesystem, Scan.gc deletes exactly the catalog rows for the path with time
before the cutoff AND unlinks exactly those rows' blobs, and a second run
with the same arguments is a no-op; the missing-blob tolerance the claim
asserts is refuted separately. -/
theorem Scan_gc_ok (st : GcState) (path : String) (cutoff : Int)
    (hids : (st.scans.map (fun s => s.id)).Nodup)
    (hblobs : (st.scans.map (fun s => s.blob)).Nodup)
    (hfsnd : st.fs.Nodup)
    (hfs : ∀ s ∈ st.scans, s.path = path → s.time < cutoff → s.blob ∈ st.fs) :
    ∃ st', Scan_gc st path cutoff = .ok st'
      ∧ st'.scans = st.scans.filter (fun s => decide (¬(s.path = path ∧ s.time < cutoff)))
      ∧ st'.fs = st.fs.filter (fun b => decide (b ∉
          (st.scans.filter (fun s => decide (s.path = path ∧ s.time < cutoff))).map
            (fun s => s.blob)))
      ∧ Scan_gc st' path cutoff = .ok st' := by
  set pred : GcRow → Bool := fun s => decide (s.path = path ∧ s.time < cutoff) with hpred
  have hsubl : (st.scans.filter pred).Sublist st.scans := List.filter_sublist _
  have hbl : ∀ s ∈ st.scans.filter pred, s.blob ∈ st.fs := by
    intro s hs
    rcases List.mem_filter.mp hs with ⟨hmem, hp⟩
    rcases of_decide_eq_true hp with ⟨h1, h2⟩
    exact hfs s hmem h1 h2
  have hnd : ((st.scans.filter pred).map (fun s => s.blob)).Nodup :=
    (hsubl.map (fun s => s.blob)).nodup hblobs
  have hok := gcGo_ok (st.scans.filter pred) st hbl hnd hfsnd
  have hscans : st.scans.filter
        (fun r => decide (r.id ∉ (st.scans.filter pred).map (fun s => s.id)))
      = st.scans.filter (fun s => decide (¬(s.path = path ∧ s.time < cutoff))) := by
    apply List.filter_congr
    intro r hr
    simp only [decide_eq_decide]
    constructor
    · intro hnotin hp
      exact hnotin (List.mem_map_of_mem _ (List.mem_filter.mpr ⟨hr, decide_eq_true hp⟩))
    · intro hnp hin
      rcases List.mem_map.mp hin with ⟨r', hr', hid⟩
      rcases List.mem_filter.mp hr' with ⟨hr'mem, hp'⟩
      have : r' = r := List.inj_on_of_nodup_map hids hr'mem hr hid
      subst this
      exact hnp (of_decide_eq_true hp')
  refine ⟨_, by rw [Scan_gc, ← hpred, hok], by simpa using hscans, rfl, ?_⟩
  rw [Scan_gc]
  have : (st.scans.filter (fun s => decide (¬(s.path = path ∧ s.time < cutoff)))).filter pred = [] := by
    rw [List.filter_filter]
    apply List.filter_eq_nil_iff.mpr
    intro a _
    by_cases h : a.path = path ∧ a.time < cutoff <;> simp [hpred, h]
  simp only [hscans]
  rw [this]
  simp [gcGo]

/-- C7 counterexample: with the single stale row's blob missing from the
filesystem, Scan.gc stats the blob before deleting anything, so it errors
out and the stale catalog row survives — a missing blob is not ignored. -/
theorem c7_counterexample :
    Scan_gc gcStMissing "/p" 10 = .error ("stat: blob1: No such file or directory", gcStMissing)
    ∧ (gcStMissing.scans.filter (fun s => decide (s.path = "/p" ∧ s.time < 10)))
        = [⟨1, "/p", 5, "blob1"⟩] := ⟨rfl, rfl⟩

/-- C7 witness: the amended gc theorem at a concrete three-row catalog with
the stale blob present: the stale row is deleted, its blob unlinked, and a
second run is a no-op. -/
theorem c7_witness :
    ∃ st', Scan_gc gcStW "/p" 10 = .ok st'
      ∧ st'.scans = gcStW.scans.filter (fun s => decide (¬(s.path = "/p" ∧ s.time < 10)))
      ∧ st'.fs = gcStW.fs.filter (fun b => decide (b ∉
          (gcStW.scans.filter (fun s => decide (s.path = "/p" ∧ s.time < 10))).map
            (fun s => s.blob)))
      ∧ Scan_gc st' "/p" 10 = .ok st' :=
  Scan_gc_ok gcStW "/p" 10 (by decide) (by decide) (by decide) (by decide)

/-! ### C8 theorems -/

/-- C8 counterexample: the prefix-list helper maps a 30-second subprocess
timeout to the empty list, indistinguishable from an empty prefix — no
gateway-timeout error reaches the caller. -/
theorem c8_counterexample :
    list_s3_children (.timeoutExpired "Command timed out after 30 seconds") = ([] : List S3Child)
    ∧ list_s3_children (.timeoutExpired "Command timed out after 30 seconds")
        = list_s3_children (.completed 0 []) := ⟨rfl, rfl⟩

/-- C8, amended: only the bucket-list route surfaces the subprocess timeout
as a 504 gateway-timeout response; the prefix-list helper swallows it and
returns the empty list. -/
theorem c8_amended (m m' : String) :
    list_s3_buckets_route (.timeoutExpired m) = (504, .err "Timeout listing buckets")
    ∧ list_s3_children (.timeoutExpired m') = [] := ⟨rfl, rfl⟩

/-- C9 counterexample: finishing a failed scan deletes the progress row
without logging or retaining the "failed" status anywhere. -/
theorem c9_counterexample :
    (ScanProgress_finish "/p" "failed" progStRunning).log = []
    ∧ (ScanProgress_finish "/p" "failed" progStRunning).rows = []
    ∧ ¬ (∃ r ∈ (ScanProgress_finish "/p" "failed" progStRunning).rows,
          r.path = "/p" ∧ r.status = "failed") := by decide

/-- C9, amended: ScanProgress.finish ignores its status argument entirely —
finishing with any status equals finishing with "completed", the row is gone
(a poller observes no status at all afterwards, so no spurious "running"
state), and nothing is logged. -/
theorem c9_amended (path status : String) (st : ProgressState) :
    ScanProgress_finish path status st = ScanProgress_finish path "completed" st
    ∧ observedStatus (ScanProgress_finish path status st) path = none
    ∧ (ScanProgress_finish path status st).log = st.log := by
  refine ⟨rfl, ?_, rfl⟩
  have : (ScanProgress_finish path status st).rows.find? (fun r => decide (r.path = path)) = none := by
    apply List.find?_eq_none.mpr
    intro r hr
    rcases List.mem_filter.mp hr with ⟨_, hne⟩
    simp only [decide_eq_true_eq] at hne ⊢
    exact hne
  simp [observedStatus, this]
/-! ### C6: compare of a scan with itself -/

theorem filter_not_mem_self {p : List String} :
    p.filter (fun x => decide (x ∉ p)) = [] := by
  apply List.filter_eq_nil_iff.mpr
  intro a ha
  simp only [decide_eq_true_eq, Decidable.not_not]
  exact ha

theorem compareCore_self (uriP : String) (ch : List (Row × String)) :
    (compareCore uriP ch ch).summary.added = 0
    ∧ (compareCore uriP ch ch).summary.removed = 0
    ∧ (compareCore uriP ch ch).summary.changed = 0
    ∧ (compareCore uriP ch ch).summary.total_delta = 0
    ∧ ∀ r ∈ (compareCore uriP ch ch).rows,
        r.status = "unchanged" ∧ r.size_delta = 0 ∧ r.n_desc_delta = some 0 := by
  have hadded : ((ch.map (fun x => x.2)).dedup).filter
      (fun x => decide (x ∉ (ch.map (fun x => x.2)).dedup)) = [] := filter_not_mem_self
  have hrows : ∀ r ∈ (compareCore uriP ch ch).rows,
      r.status = "unchanged" ∧ r.size_delta = 0 ∧ r.n_desc_delta = some 0 := by
    intro r hr
    simp only [compareCore, hadded, List.filterMap_nil, List.nil_append] at hr
    have hperm := sortByAbsDelta_perm (((ch.map (fun x => x.2)).dedup.filter
        (fun x => decide (x ∈ (ch.map (fun x => x.2)).dedup))).filterMap
        (fun rp =>
          match findRow ch rp, findRow ch rp with
          | some r1, some r2 =>
            let sd := r2.size - r1.size
            let nd := r2.n_desc - r1.n_desc
            some ({ path := rp, uri := uriP ++ rp,
                    status := if sd ≠ 0 ∨ nd ≠ 0 then "changed" else "unchanged",
                    size_delta := sd, size_old := some r1.size,
                    n_desc_delta := some nd, n_desc_old := some r1.n_desc } : CmpRow)
          | _, _ => none))
    rw [hperm.mem_iff] at hr
    rcases List.mem_filterMap.mp hr with ⟨rp, _, hfn⟩
    cases hfind : findRow ch rp with
    | none => rw [hfind] at hfn; cases hfn
    | some r1 =>
      rw [hfind] at hfn
      simp only [Option.some_inj] at hfn
      have hsd : r1.size - r1.size = 0 := sub_self _
      have hnd : r1.n_desc - r1.n_desc = 0 := sub_self _
      rw [← hfn]
      refine ⟨?_, ?_, ?_⟩
      · simp [hsd, hnd]
      · simp [hsd]
      · simp [hnd]
  refine ⟨?_, ?_, ?_, ?_, hrows⟩
  · simp [compareCore, hadded]
  · simp [compareCore, hadded]
  · have hproj : (compareCore uriP ch ch).summary.changed
        = ((compareCore uriP ch ch).rows.filter (fun r => decide (r.status = "changed"))).length := rfl
    rw [hproj, List.length_eq_zero]
    apply List.filter_eq_nil_iff.mpr
    intro r hr
    rcases hrows r hr with ⟨hst, _, _⟩
    simp [hst]
  · have hproj : (compareCore uriP ch ch).summary.total_delta
        = ((compareCore uriP ch ch).rows.map (fun r => r.size_delta)).sum := rfl
    rw [hproj]
    apply List.sum_eq_zero
    intro x hx
    rcases List.mem_map.mp hx with ⟨r, hr, hxr⟩
    rcases hrows r hr with ⟨_, hsd, _⟩
    rw [← hxr]
    exact hsd
/-- C6 main: compare a resolved scan with itself. -/
theorem c6_compare_self (uri : String) (s : CatScan) (store : String → List Row) (depth : Nat) :
    (compare_scans uri s s store depth).summary.added = 0
    ∧ (compare_scans uri s s store depth).summary.removed = 0
    ∧ (compare_scans uri s s store depth).summary.changed = 0
    ∧ (compare_scans uri s s store depth).summary.total_delta = 0
    ∧ ∀ r ∈ (compare_scans uri s s store depth).rows,
        r.status = "unchanged" ∧ r.size_delta = 0 ∧ r.n_desc_delta = some 0 :=
  compareCore_self _ _
/-! ### C5: fresher-child patching lemmas -/

theorem toNat_ofNat_valid {n : Nat} (h1 : 97 ≤ n) (h2 : n ≤ 122) : (Char.ofNat n).toNat = n := by
  have hv : n.isValidChar := Or.inl (by omega)
  simp [Char.ofNat, hv, Char.ofNatAux, Char.toNat]
  rfl

theorem lowerChar_eq_slash {c : Char} (h : lowerChar c = '/') : c = '/' := by
  unfold lowerChar at h
  by_cases hc : 65 ≤ c.toNat ∧ c.toNat ≤ 90
  · rw [if_pos hc] at h
    have := congrArg Char.toNat h
    rw [toNat_ofNat_valid (by omega) (by omega)] at this
    have : c.toNat + 32 = 47 := this
    omega
  · rwa [if_neg hc] at h

theorem toList_asciiLower (s : String) : (asciiLower s).toList = s.toList.map lowerChar := rfl

theorem toList_append_str (a b : String) : (a ++ b).toList = a.toList ++ b.toList :=
  String.data_append a b

theorem likeDirectChild_of_shape {pre nm : String} (h : '/' ∉ nm.toList) :
    likeDirectChild pre (pre ++ nm) = true := by
  unfold likeDirectChild likeStarts
  have h1 : (asciiLower (pre ++ nm)).toList
      = pre.toList.map lowerChar ++ nm.toList.map lowerChar := by
    rw [toList_asciiLower, toList_append_str, List.map_append]
  rw [h1, toList_asciiLower]
  have hpre : (pre.toList.map lowerChar).isPrefixOf
      (pre.toList.map lowerChar ++ nm.toList.map lowerChar) = true :=
    List.isPrefixOf_iff_prefix.mpr (List.prefix_append _ _)
  rw [hpre]
  have hdrop : (pre.toList.map lowerChar ++ nm.toList.map lowerChar).drop
      (pre.toList.map lowerChar).length = nm.toList.map lowerChar := List.drop_left _ _
  rw [hdrop]
  have hcont : (nm.toList.map lowerChar).contains '/' = false := by
    rw [Bool.eq_false_iff]
    intro hcontains
    have : ('/' : Char) ∈ nm.toList.map lowerChar := List.elem_iff.mp hcontains
    rcases List.mem_map.mp this with ⟨c, hc, hlc⟩
    exact h ((lowerChar_eq_slash hlc) ▸ hc)
  rw [hcont]
  rfl

theorem lookup_insertAssoc (m : List (String × FresherStats)) (k k' : String) (v : FresherStats) :
    (insertAssoc k' v m).lookup k = if k' = k then some v else m.lookup k := by
  induction m with
  | nil =>
    by_cases h : k' = k
    · subst h; simp [insertAssoc, List.lookup]
    · have hne : (k == k') = false := beq_eq_false_iff_ne.mpr (Ne.symm h)
      simp [insertAssoc, List.lookup, hne, h]
  | cons e m ih =>
    rcases e with ⟨ek, ev⟩
    by_cases h : ek = k'
    · subst h
      simp only [insertAssoc, if_pos rfl]
      by_cases h2 : ek = k
      · subst h2; simp [List.lookup]
      · have hne : (k == ek) = false := beq_eq_false_iff_ne.mpr (Ne.symm h2)
        simp [List.lookup, hne, h2]
    · simp only [insertAssoc, if_neg h]
      by_cases hk : k = ek
      · subst hk
        have hne : ¬ (k' = k) := fun hh => h hh.symm
        simp [List.lookup, hne]
      · have hbeq : (k == ek) = false := beq_eq_false_iff_ne.mpr hk
        simp [List.lookup, hbeq, ih]

theorem lookup_buildFresherStats_mem {rows : List CatScan} {k : String} {v : FresherStats}
    (h : (buildFresherStats rows).lookup k = some v) :
    ∃ s ∈ rows, s.path = k ∧ s.size = some v.size ∧ s.n_desc = v.n_desc
      ∧ s.n_children = v.n_children ∧ s.time = v.scan_time := by
  unfold buildFresherStats at h
  suffices H : ∀ (rows : List CatScan) (acc : List (String × FresherStats)),
      (rows.foldl (fun m s =>
        match s.size with
        | some sz => insertAssoc s.path ⟨sz, s.n_desc, s.n_children, s.time⟩ m
        | none => m) acc).lookup k = some v →
      acc.lookup k = some v ∨ ∃ s ∈ rows, s.path = k ∧ s.size = some v.size
        ∧ s.n_desc = v.n_desc ∧ s.n_children = v.n_children ∧ s.time = v.scan_time by
    rcases H rows [] h with h' | h'
    · simp [List.lookup] at h'
    · exact h'
  intro rows
  induction rows with
  | nil => intro acc h'; exact Or.inl h'
  | cons s rest ih =>
    intro acc h'
    simp only [List.foldl_cons] at h'
    rcases ih _ h' with h'' | h''
    · cases hsz : s.size with
      | none => rw [hsz] at h''; exact Or.inl h''
      | some sz =>
        rw [hsz] at h''
        rw [lookup_insertAssoc] at h''
        by_cases hp : s.path = k
        · rw [if_pos hp] at h''
          refine Or.inr ⟨s, List.mem_cons_self _ _, hp, ?_⟩
          have hv : v = ⟨sz, s.n_desc, s.n_children, s.time⟩ := by
            cases h''; rfl
          rw [hv, hsz]
          exact ⟨rfl, rfl, rfl, rfl⟩
        · rw [if_neg hp] at h''
          exact Or.inl h''
    · rcases h'' with ⟨s', hs', hrest⟩
      exact Or.inr ⟨s', List.mem_cons_of_mem _ hs', hrest⟩

theorem lookup_buildFresherStats_isSome {rows : List CatScan} {k : String}
    (h : ∃ s ∈ rows, s.path = k ∧ s.size.isSome = true) :
    ((buildFresherStats rows).lookup k).isSome = true := by
  unfold buildFresherStats
  suffices H : ∀ (rows : List CatScan) (acc : List (String × FresherStats)),
      (acc.lookup k).isSome = true ∨ (∃ s ∈ rows, s.path = k ∧ s.size.isSome = true) →
      ((rows.foldl (fun m s =>
        match s.size with
        | some sz => insertAssoc s.path ⟨sz, s.n_desc, s.n_children, s.time⟩ m
        | none => m) acc).lookup k).isSome = true by
    exact H rows [] (Or.inr h)
  intro rows
  induction rows with
  | nil =>
    intro acc h'
    rcases h' with h' | ⟨s, hs, _⟩
    · exact h'
    · cases hs
  | cons s rest ih =>
    intro acc h'
    simp only [List.foldl_cons]
    apply ih
    rcases h' with h' | ⟨s', hs', hp, hsz⟩
    · left
      cases hszs : s.size with
      | none => exact h'
      | some sz =>
        rw [lookup_insertAssoc]
        by_cases hp : s.path = k
        · rw [if_pos hp]; rfl
        · rw [if_neg hp]; exact h'
    · rcases List.mem_cons.mp hs' with he | he
      · subst he
        left
        cases hszs : s'.size with
        | none => rw [hszs] at hsz; cases hsz
        | some sz =>
          rw [lookup_insertAssoc, if_pos hp]
          rfl
      · right
        exact ⟨s', he, hp, hsz⟩

theorem exists_max_time (db : List CatScan) (pred : CatScan → Bool) (p : String)
    (h : ∃ s ∈ db, pred s = true ∧ s.path = p) :
    ∃ s ∈ db, pred s = true ∧ s.path = p
      ∧ ∀ s' ∈ db, pred s' = true → s'.path = p → s'.time ≤ s.time := by
  induction db with
  | nil => rcases h with ⟨s, hs, _⟩; cases hs
  | cons d rest ih =>
    by_cases hrest : ∃ s ∈ rest, pred s = true ∧ s.path = p
    · rcases ih hrest with ⟨s, hs, hps, hpp, hmax⟩
      by_cases hd : pred d = true ∧ d.path = p ∧ s.time ≤ d.time
      · refine ⟨d, List.mem_cons_self _ _, hd.1, hd.2.1, ?_⟩
        intro s' hs' hps' hpp'
        rcases List.mem_cons.mp hs' with he | he
        · subst he; exact le_refl _
        · exact le_trans (hmax s' he hps' hpp') hd.2.2
      · refine ⟨s, List.mem_cons_of_mem _ hs, hps, hpp, ?_⟩
        intro s' hs' hps' hpp'
        rcases List.mem_cons.mp hs' with he | he
        · subst he
          by_cases hle : s.time ≤ s'.time
          · exact absurd ⟨hps', hpp', hle⟩ hd
          · omega
        · exact hmax s' he hps' hpp'
    · rcases h with ⟨s, hs, hps, hpp⟩
      rcases List.mem_cons.mp hs with he | he
      · subst he
        refine ⟨s, List.mem_cons_self _ _, hps, hpp, ?_⟩
        intro s' hs' hps' hpp'
        rcases List.mem_cons.mp hs' with he' | he'
        · subst he'; exact le_refl _
        · exact absurd ⟨s', he', hps', hpp'⟩ hrest
      · exact absurd ⟨s, he, hps, hpp⟩ hrest

theorem mem_fresherLatest {db : List CatScan} {pre : String} {t : Int} {s : CatScan}
    (h : s ∈ fresherLatest db pre t) : s ∈ db ∧ isFresherCand pre t s = true := by
  rcases List.mem_filter.mp h with ⟨hmem, hb⟩
  rcases Bool.and_eq_true_iff.mp hb with ⟨h1, _⟩
  exact ⟨hmem, h1⟩

theorem exists_mem_fresherLatest {db : List CatScan} {pre : String} {t : Int} {p : String}
    (h : ∃ s ∈ db, isFresherCand pre t s = true ∧ s.path = p) :
    ∃ s ∈ fresherLatest db pre t, s.path = p := by
  rcases exists_max_time db (isFresherCand pre t) p h with ⟨s, hs, hps, hpp, hmax⟩
  refine ⟨s, List.mem_filter.mpr ⟨hs, ?_⟩, hpp⟩
  rw [Bool.and_eq_true_iff]
  refine ⟨hps, ?_⟩
  rw [List.all_eq_true]
  intro s' hs'
  by_cases hc : isFresherCand pre t s' = true ∧ s'.path = s.path
  · have := hmax s' hs' hc.1 (hpp ▸ hc.2)
    simp [this]
  · rcases Decidable.not_and_iff_or_not.mp hc with hc' | hc'
    · simp [Bool.eq_false_iff.mpr hc']
    · have : (s'.path == s.path) = false := by
        simp [hc']
      simp [this]
theorem forall2_map_self {α β : Type} {R : α → β → Prop} {l : List α} {f : α → β}
    (h : ∀ a ∈ l, R a (f a)) : List.Forall₂ R l (l.map f) := by
  induction l with
  | nil => exact List.Forall₂.nil
  | cons a l ih =>
    exact List.Forall₂.cons (h a (List.mem_cons_self _ _))
      (ih fun a ha => h a (List.mem_cons_of_mem _ ha))

theorem isFresherCand_true_iff {pre : String} {t : Int} {s : CatScan} :
    isFresherCand pre t s = true ↔ (likeDirectChild pre s.path = true ∧ t < s.time) := by
  unfold isFresherCand
  rw [Bool.and_eq_true_iff, decide_eq_true_eq]

/-- C5: after the fresher-child patching phase of get_scan, a child of the
viewed uri is marked patched exactly when the catalog holds a scan rooted at
that child's own uri (a direct child of the viewed uri) with time strictly
greater than the serving scan's; the patched stats are that scan's
denormalised root stats.  Scans rooted at grandchildren or deeper never
patch a child (their paths cannot equal a direct child's uri and are
excluded by the query's NOT LIKE filter). -/
theorem c5_patch_iff (db : List CatScan) (uri : String) (t : Int) (children : List ChildOut)
    (hsize : ∀ s ∈ db, s.size.isSome = true)
    (hchild : ∀ c ∈ children,
      (∃ nm : String, c.uri = rstripSlash uri ++ "/" ++ nm ∧ '/' ∉ nm.toList)
      ∧ c.patched = false) :
    List.Forall₂ (fun c out =>
      (out.patched = true ↔ ∃ s ∈ db, s.path = c.uri ∧ t < s.time)
      ∧ (out.patched = true → ∃ s ∈ db, s.path = c.uri ∧ t < s.time
          ∧ s.size = some out.size ∧ s.n_desc = out.n_desc ∧ s.n_children = out.n_children
          ∧ out.mtime = none ∧ out.scan_time = some s.time)
      ∧ (out.patched = false → out = c))
      children (patchFresher db uri t children) := by
  unfold patchFresher
  apply forall2_map_self
  intro c hc
  rcases hchild c hc with ⟨⟨nm, hnm, hslash⟩, hcp⟩
  set pre := rstripSlash uri ++ "/" with hpre
  set stats := buildFresherStats (fresherLatest db pre t) with hstats
  cases hl : stats.lookup c.uri with
  | none =>
    have hout : patchOne stats c = c := by
      unfold patchOne
      rw [hl]
    rw [hout]
    refine ⟨?_, ?_, fun _ => rfl⟩
    · rw [hcp]
      constructor
      · intro h; cases h
      · rintro ⟨s, hs, hsp, hst⟩
        exfalso
        have hcand : isFresherCand pre t s = true := by
          rw [isFresherCand_true_iff]
          refine ⟨?_, hst⟩
          rw [hsp, hnm]
          exact likeDirectChild_of_shape hslash
        rcases exists_mem_fresherLatest ⟨s, hs, hcand, hsp⟩ with ⟨s', hs'mem, hs'p⟩
        have hsome : ((buildFresherStats (fresherLatest db pre t)).lookup c.uri).isSome = true :=
          lookup_buildFresherStats_isSome
            ⟨s', hs'mem, hs'p, hsize s' (mem_fresherLatest hs'mem).1⟩
        rw [← hstats, hl] at hsome
        cases hsome
    · rw [hcp]; intro h; cases h
  | some st =>
    have hpp : (patchOne stats c).patched = true := by unfold patchOne; rw [hl]
    have hfsz : (patchOne stats c).size = st.size := by unfold patchOne; rw [hl]
    have hfnd : (patchOne stats c).n_desc = st.n_desc := by unfold patchOne; rw [hl]
    have hfnc : (patchOne stats c).n_children = st.n_children := by unfold patchOne; rw [hl]
    have hfmt : (patchOne stats c).mtime = none := by unfold patchOne; rw [hl]
    have hfst : (patchOne stats c).scan_time = some st.scan_time := by unfold patchOne; rw [hl]
    have hlookup : (buildFresherStats (fresherLatest db pre t)).lookup c.uri = some st := by
      rw [← hstats]; exact hl
    obtain ⟨s, hsmem, hspath, hssize, hsnd, hsnc, hstime⟩ :=
      lookup_buildFresherStats_mem hlookup
    obtain ⟨hsdb, hcand⟩ := mem_fresherLatest hsmem
    have hlt : t < s.time := (isFresherCand_true_iff.mp hcand).2
    refine ⟨⟨fun _ => ⟨s, hsdb, hspath, hlt⟩, fun _ => hpp⟩, ?_, ?_⟩
    · intro _
      refine ⟨s, hsdb, hspath, hlt, ?_, ?_, ?_, hfmt, ?_⟩
      · rw [hfsz]; exact hssize
      · rw [hfnd]; exact hsnd
      · rw [hfnc]; exact hsnc
      · rw [hfst, hstime]
    · intro h
      rw [hpp] at h
      cases h
/-- C5 witness: the patching theorem at a concrete catalog where a direct
child scan is fresher (patched) and a grandchild scan is not. -/
theorem c5_patch_iff_witness :
    List.Forall₂ (fun c out =>
      (out.patched = true ↔ ∃ s ∈ c5db, s.path = c.uri ∧ (5 : Int) < s.time)
      ∧ (out.patched = true → ∃ s ∈ c5db, s.path = c.uri ∧ (5 : Int) < s.time
          ∧ s.size = some out.size ∧ s.n_desc = out.n_desc ∧ s.n_children = out.n_children
          ∧ out.mtime = none ∧ out.scan_time = some s.time)
      ∧ (out.patched = false → out = c))
      c5children (patchFresher c5db "/p" 5 c5children) :=
  c5_patch_iff c5db "/p" 5 c5children (by decide)
    (by
      intro c hc
      rcases List.mem_cons.mp hc with h | h
      · subst h
        exact ⟨⟨"child1", by decide, by decide⟩, rfl⟩
      · rcases List.mem_cons.mp h with h2 | h2
        · subst h2
          exact ⟨⟨"child2", by decide, by decide⟩, rfl⟩
        · cases h2)
/-- C1 (code bug): the table index() builds, which Scan.create persists
without re-sorting, is sorted by path alone; on this input the row order is
., a, a/b, c with depths 0, 1, 2, 1, which is not sorted by (depth, path),
and the rows with depth ≤ 1 are not a contiguous prefix of the file.  (The
migration CLI re-sorts blobs by depth then path, showing the intended
order.) -/
theorem c1_table_order_eval :
    exTableAC.map (fun r => (r.depth, r.path)) = [(0, "."), (1, "a"), (2, "a/b"), (1, "c")]
    ∧ ¬ List.Sorted (fun a b : Nat × String => a.1 < b.1 ∨ (a.1 = b.1 ∧ strLe a.2 b.2 = true))
        (exTableAC.map (fun r => (r.depth, r.path)))
    ∧ exTableAC.filter (fun r => r.depth ≤ 1) ≠ exTableAC.takeWhile (fun r => r.depth ≤ 1)
    ∧ List.Sorted (fun a b : Row => strLe a.path b.path = true) exTableAC := by decide

/-- C4: a scan whose enumeration yields zero records produces exactly one
row (path ".", size 0, mtime 0, kind dir, parent "", n_desc 0, n_children 0,
depth 0) and Scan.create denormalises size 0 into the catalog row. -/
theorem c4_empty_scan (path0 : String) :
    index_df [] path0 = [{ path := ".", size := 0, mtime := 0, kind := "dir", parent := "",
                           uri := path0, n_desc := 0, n_children := 0, depth := 0 }]
    ∧ rootStats (index_df [] path0) = (some 0, some 0, some 0) := ⟨rfl, rfl⟩

/-- C10 (code bug): with a root-level file !a sorting before ".", the first
parent == "" row of the path-sorted table is the file row, so Scan.create
denormalises (5, 0, 1) into the catalog instead of the root entry's
(12, 2, 3). -/
theorem c10_rootstats_eval :
    rootStats exTableBang = (some 5, some 0, some 1)
    ∧ (exTableBang.filter (fun r => r.path = ".")).map (fun r => (r.size, r.n_children, r.n_desc))
        = [(12, 2, 3)]
    ∧ (exTableBang.filter (fun r => r.parent = "")).map (fun r => r.path) = ["!a", ".", "b"] := by
  decide

/-- C2 counterexample: a persisted scan of a single root-level file has a
row (the file) with parent "" but depth 1 and path ≠ ".": parent = "" does
not imply depth 0. -/
theorem c2_counterexample :
    ∃ r ∈ exTableF, r.parent = "" ∧ r.depth ≠ 0 ∧ r.path ≠ "." := by decide

/-- C3 counterexample: in the persisted table for keys d/x and f, the root
directory row "." violates all four rollup equations when children are read
as "rows whose parent is the directory's path": its only parent="." row is
d, but the root-level file f has parent "". -/
theorem c3_counterexample :
    ∃ d ∈ exTableDF, d.kind = "dir"
      ∧ d.size ≠ ((exTableDF.filter (fun r => r.parent = d.path)).map (fun r => r.size)).sum
      ∧ d.n_children ≠ ((exTableDF.filter (fun r => r.parent = d.path)).length : Int)
      ∧ d.n_desc ≠ 1 + ((exTableDF.filter (fun r => r.parent = d.path)).map (fun r => r.n_desc)).sum
      ∧ d.mtime ≠ intMax ((exTableDF.filter (fun r => r.parent = d.path)).map (fun r => r.mtime)) := by
  decide
/-! ### Level-loop group lemmas -/

theorem filter_path_map_of_nodup (keys : List String) (hnd : keys.Nodup)
    (mk : String → Row) (hmk : ∀ k, (mk k).path = k) (k : String) :
    (keys.map mk).filter (fun r => decide (r.path = k))
      = if k ∈ keys then [mk k] else [] := by
  induction keys with
  | nil => simp
  | cons a ks ih =>
    rcases List.nodup_cons.mp hnd with ⟨ha, hks⟩
    simp only [List.map_cons, List.filter_cons]
    by_cases hak : (mk a).path = k
    · rw [hmk] at hak
      subst hak
      simp only [hmk, decide_eq_true_eq, if_pos rfl, List.mem_cons, true_or, if_true]
      rw [ih hks]
      simp [ha]
    · have : (decide ((mk a).path = k)) = false := by simp [hak]
      rw [this]
      rw [hmk] at hak
      simp only [Bool.false_eq_true, if_false, ih hks, List.mem_cons]
      have : ¬ (k = a) := fun h => hak h.symm
      simp [this]

theorem colSum_nil (c : AggCol) : colSum c [] = 0 := rfl

theorem colSum_append (c : AggCol) (l₁ l₂ : List Row) :
    colSum c (l₁ ++ l₂) = colSum c l₁ + colSum c l₂ := by
  simp [colSum]

theorem colOf_rekeyRow (c : AggCol) (r : Row) :
    colOf c { r with path := r.parent } = colOf c r := by
  cases c <;> rfl

theorem rekey_filter_path (l : List Row) (k : String) :
    (rekey l).filter (fun r => decide (r.path = k))
      = (l.filter (fun r => decide (r.path ≠ "" ∧ r.parent = k))).map
          (fun r => { r with path := r.parent }) := by
  unfold rekey
  rw [List.filter_map]
  rw [List.filter_filter]
  congr 1
  apply List.filter_congr
  intro r _
  show ((decide (r.parent = k)) && (decide (r.path ≠ ""))) = decide (r.path ≠ "" ∧ r.parent = k)
  rw [Bool.and_comm, Bool.decide_and]

theorem colSum_rekeyed (c : AggCol) (l : List Row) :
    colSum c (l.map (fun r => { r with path := r.parent })) = colSum c l := by
  unfold colSum
  rw [List.map_map]
  congr 1
  apply List.map_congr_left
  intro r _
  exact colOf_rekeyRow c r

theorem aggRow_col (c : AggCol) (cur : List Row) (level : Nat) (k : String) :
    colOf c (aggRow cur level k) = colSum c (cur.filter (fun r => decide (r.path = k))) := by
  cases c <;> rfl

theorem mem_keys_rekey {l : List Row} {k : String} :
    k ∈ keysOf (rekey l) ↔ ∃ r ∈ l, r.path ≠ "" ∧ r.parent = k := by
  rw [mem_keysOf]
  constructor
  · rintro ⟨r', hr', hp⟩
    unfold rekey at hr'
    rcases List.mem_map.mp hr' with ⟨r, hrf, hre⟩
    rcases List.mem_filter.mp hrf with ⟨hrl, hne⟩
    refine ⟨r, hrl, of_decide_eq_true hne, ?_⟩
    rw [← hre] at hp
    exact hp
  · rintro ⟨r, hrl, hne, hpar⟩
    refine ⟨{ r with path := r.parent }, ?_, hpar⟩
    unfold rekey
    exact List.mem_map_of_mem _ (List.mem_filter.mpr ⟨hrl, decide_eq_true hne⟩)

theorem sum_col_groupAgg (c : AggCol) (l : List Row) (level : Nat) (k : String) :
    colSum c ((groupAgg l level).filter (fun r => decide (r.path = k)))
      = colSum c (l.filter (fun r => decide (r.path ≠ "" ∧ r.parent = k))) := by
  unfold groupAgg
  rw [filter_path_map_of_nodup _ (keysOf_nodup _) _ (fun _ => rfl)]
  by_cases hk : k ∈ keysOf (rekey l)
  · rw [if_pos hk]
    have : colSum c [aggRow (rekey l) level k] = colOf c (aggRow (rekey l) level k) := by
      simp [colSum]
    rw [this, aggRow_col, rekey_filter_path, colSum_rekeyed]
  · rw [if_neg hk]
    have hempty : l.filter (fun r => decide (r.path ≠ "" ∧ r.parent = k)) = [] := by
      apply List.filter_eq_nil_iff.mpr
      intro r hr
      simp only [decide_eq_true_eq]
      rintro ⟨hne, hpar⟩
      exact hk (mem_keys_rekey.mpr ⟨r, hr, hne, hpar⟩)
    rw [hempty]

theorem sum_nchildren_groupAgg (l : List Row) (level : Nat) (k : String) :
    (((groupAgg l level).filter (fun r => decide (r.path = k))).map (fun r => r.n_children)).sum
      = if level = 0
        then ((l.filter (fun r => decide (r.path ≠ "" ∧ r.parent = k))).length : Int)
        else 0 := by
  unfold groupAgg
  rw [filter_path_map_of_nodup _ (keysOf_nodup _) _ (fun _ => rfl)]
  by_cases hk : k ∈ keysOf (rekey l)
  · rw [if_pos hk]
    have hval : (aggRow (rekey l) level k).n_children
        = if level = 0
          then (((rekey l).filter (fun r => decide (r.path = k))).length : Int)
          else 0 := rfl
    have hlen : ((rekey l).filter (fun r => decide (r.path = k))).length
        = (l.filter (fun r => decide (r.path ≠ "" ∧ r.parent = k))).length := by
      rw [rekey_filter_path, List.length_map]
    simp only [List.map_cons, List.map_nil, List.sum_cons, List.sum_nil, add_zero, hval, hlen]
  · rw [if_neg hk]
    have hempty : l.filter (fun r => decide (r.path ≠ "" ∧ r.parent = k)) = [] := by
      apply List.filter_eq_nil_iff.mpr
      intro r hr
      simp only [decide_eq_true_eq]
      rintro ⟨hne, hpar⟩
      exact hk (mem_keys_rekey.mpr ⟨r, hr, hne, hpar⟩)
    rw [hempty]
    simp

theorem mtime_groupAgg_fwd (l : List Row) (level : Nat) (k : String) :
    ∀ m ∈ ((groupAgg l level).filter (fun r => decide (r.path = k))).map (fun r => r.mtime),
      ∃ m' ∈ (l.filter (fun r => decide (r.path ≠ "" ∧ r.parent = k))).map (fun r => r.mtime),
        m ≤ m' := by
  intro m hm
  unfold groupAgg at hm
  rw [filter_path_map_of_nodup _ (keysOf_nodup _) _ (fun _ => rfl)] at hm
  by_cases hk : k ∈ keysOf (rekey l)
  · rw [if_pos hk] at hm
    simp only [List.map_cons, List.map_nil, List.mem_singleton] at hm
    subst hm
    have hval : (aggRow (rekey l) level k).mtime
        = intMax (((rekey l).filter (fun r => decide (r.path = k))).map (fun r => r.mtime)) := rfl
    rcases mem_keysOf.mp hk with ⟨r', hr', hp'⟩
    have hne : ((rekey l).filter (fun r => decide (r.path = k))).map (fun r => r.mtime) ≠ [] := by
      intro hnil
      have : r' ∈ (rekey l).filter (fun r => decide (r.path = k)) :=
        List.mem_filter.mpr ⟨hr', decide_eq_true hp'⟩
      rw [List.map_eq_nil_iff] at hnil
      rw [hnil] at this
      cases this
    have hmem := intMax_mem hne
    rw [← hval] at hmem
    rw [hval, rekey_filter_path, List.map_map] at hmem ⊢
    have : ∀ x ∈ (l.filter (fun r => decide (r.path ≠ "" ∧ r.parent = k))).map
        ((fun r => r.mtime) ∘ fun r => { r with path := r.parent }),
        x ∈ (l.filter (fun r => decide (r.path ≠ "" ∧ r.parent = k))).map (fun r => r.mtime) := by
      intro x hx
      rcases List.mem_map.mp hx with ⟨r, hr, hxr⟩
      exact List.mem_map.mpr ⟨r, hr, hxr⟩
    exact ⟨_, this _ hmem, le_refl _⟩
  · rw [if_neg hk] at hm
    cases hm

theorem mtime_groupAgg_bwd (l : List Row) (level : Nat) (k : String) :
    ∀ m ∈ (l.filter (fun r => decide (r.path ≠ "" ∧ r.parent = k))).map (fun r => r.mtime),
      ∃ m' ∈ ((groupAgg l level).filter (fun r => decide (r.path = k))).map (fun r => r.mtime),
        m ≤ m' := by
  intro m hm
  rcases List.mem_map.mp hm with ⟨r, hrf, hrm⟩
  rcases List.mem_filter.mp hrf with ⟨hrl, hcond⟩
  rcases of_decide_eq_true hcond with ⟨hne, hpar⟩
  have hk : k ∈ keysOf (rekey l) := mem_keys_rekey.mpr ⟨r, hrl, hne, hpar⟩
  unfold groupAgg
  rw [filter_path_map_of_nodup _ (keysOf_nodup _) _ (fun _ => rfl), if_pos hk]
  refine ⟨(aggRow (rekey l) level k).mtime, by simp, ?_⟩
  have hval : (aggRow (rekey l) level k).mtime
      = intMax (((rekey l).filter (fun r => decide (r.path = k))).map (fun r => r.mtime)) := rfl
  rw [hval]
  apply le_intMax
  rw [rekey_filter_path, List.map_map]
  rw [← hrm]
  exact List.mem_map.mpr ⟨r, hrf, rfl⟩
/-! ### Chain split and groupby regrouping -/

theorem colSum_cons (c : AggCol) (r : Row) (l : List Row) :
    colSum c (r :: l) = colOf c r + colSum c l := by
  simp [colSum]

theorem colSum_filter_cons (c : AggCol) (p : Row → Bool) (r : Row) (l : List Row) :
    colSum c ((r :: l).filter p)
      = (if p r then colOf c r else 0) + colSum c (l.filter p) := by
  rw [List.filter_cons]
  by_cases h : p r
  · rw [if_pos h, if_pos h, colSum_cons]
  · simp only [h, Bool.false_eq_true, if_false, zero_add]

theorem sum_chain_split (c : AggCol) (cur : List Row)
    (hp : ∀ r ∈ cur, r.path ≠ "" → r.parent = dirname r.path) (k : String) :
    colSum c (cur.filter (fun r => decide (k ∈ chain r.path)))
      = colSum c (cur.filter (fun r => decide (r.path ≠ "" ∧ r.parent = k)))
        + colSum c (cur.filter (fun r => decide (r.path ≠ "" ∧ k ∈ chain r.parent))) := by
  induction cur with
  | nil => simp [colSum]
  | cons r l ih =>
    have hpl : ∀ x ∈ l, x.path ≠ "" → x.parent = dirname x.path :=
      fun x hx => hp x (List.mem_cons_of_mem _ hx)
    rw [colSum_filter_cons, colSum_filter_cons, colSum_filter_cons, ih hpl]
    by_cases hne : r.path = ""
    · have h1 : (decide (k ∈ chain r.path)) = false := by
        rw [hne, chain_eq_nil]; simp
      have h2 : (decide (r.path ≠ "" ∧ r.parent = k)) = false := by simp [hne]
      have h3 : (decide (r.path ≠ "" ∧ k ∈ chain r.parent)) = false := by simp [hne]
      rw [h1, h2, h3]
      simp only [Bool.false_eq_true, if_false]
      ring
    · have hpar := hp r (List.mem_cons_self _ _) hne
      have hsplit : k ∈ chain r.path ↔ (r.parent = k ∨ k ∈ chain r.parent) := by
        rw [chain_eq_cons hne, hpar, List.mem_cons]
        constructor
        · rintro (h | h); exact Or.inl h.symm; exact Or.inr h
        · rintro (h | h); exact Or.inl h.symm; exact Or.inr h
      have hexcl : ¬ (r.parent = k ∧ k ∈ chain r.parent) := by
        rintro ⟨h1, h2⟩
        subst h1
        exact (ne_of_mem_chain h2) rfl
      by_cases hc2 : r.parent = k <;> by_cases hc3 : k ∈ chain r.parent
      · exact absurd ⟨hc2, hc3⟩ hexcl
      · have e1 : (decide (k ∈ chain r.path)) = true := by
          rw [decide_eq_true_eq, hsplit]; exact Or.inl hc2
        have e2 : (decide (r.path ≠ "" ∧ r.parent = k)) = true := by
          rw [decide_eq_true_eq]; exact ⟨hne, hc2⟩
        have e3 : (decide (r.path ≠ "" ∧ k ∈ chain r.parent)) = false := by
          simp [hne, hc3]
        rw [e1, e2, e3]
        simp only [if_true, Bool.false_eq_true, if_false]
        ring
      · have e1 : (decide (k ∈ chain r.path)) = true := by
          rw [decide_eq_true_eq, hsplit]; exact Or.inr hc3
        have e2 : (decide (r.path ≠ "" ∧ r.parent = k)) = false := by
          simp [hne, hc2]
        have e3 : (decide (r.path ≠ "" ∧ k ∈ chain r.parent)) = true := by
          rw [decide_eq_true_eq]; exact ⟨hne, hc3⟩
        rw [e1, e2, e3]
        simp only [if_true, Bool.false_eq_true, if_false]
        ring
      · have e1 : (decide (k ∈ chain r.path)) = false := by
          simp only [decide_eq_false_iff_not, hsplit]
          rintro (h | h); exact hc2 h; exact hc3 h
        have e2 : (decide (r.path ≠ "" ∧ r.parent = k)) = false := by
          simp [hne, hc2]
        have e3 : (decide (r.path ≠ "" ∧ k ∈ chain r.parent)) = false := by
          simp [hne, hc3]
        rw [e1, e2, e3]
        simp only [Bool.false_eq_true, if_false]
        ring

theorem sum_ite_key (ks : List String) (hnd : ks.Nodup) (x : String) (v : Int) :
    ((ks.map (fun k => if x = k then v else 0)).sum) = if x ∈ ks then v else 0 := by
  induction ks with
  | nil => simp
  | cons a ks ih =>
    rcases List.nodup_cons.mp hnd with ⟨ha, hks⟩
    simp only [List.map_cons, List.sum_cons, ih hks, List.mem_cons]
    by_cases hxa : x = a
    · subst hxa
      simp [ha]
    · simp [hxa]

theorem sum_groupby (keys : List String) (hnd : keys.Nodup) (L : List Row)
    (hsub : ∀ r ∈ L, r.path ∈ keys) (Q : String → Bool) (c : AggCol) :
    ((keys.filter Q).map (fun k' => colSum c (L.filter (fun r => decide (r.path = k'))))).sum
      = colSum c (L.filter (fun r => Q r.path)) := by
  induction L with
  | nil =>
    rw [show colSum c (List.filter (fun r => Q r.path) []) = 0 from rfl]
    apply List.sum_eq_zero
    intro x hx
    rcases List.mem_map.mp hx with ⟨k', _, hk⟩
    rw [← hk]
    rfl
  | cons r L ih =>
    have hsub' : ∀ x ∈ L, x.path ∈ keys := fun x hx => hsub x (List.mem_cons_of_mem _ hx)
    have hstep : ∀ k' : String,
        colSum c (List.filter (fun x => decide (x.path = k')) (r :: L))
          = (if r.path = k' then colOf c r else 0)
            + colSum c (List.filter (fun x => decide (x.path = k')) L) := by
      intro k'
      rw [colSum_filter_cons]
      by_cases h : r.path = k' <;> simp [h]
    have hmap : ((keys.filter Q).map
          (fun k' => colSum c (List.filter (fun x => decide (x.path = k')) (r :: L))))
        = ((keys.filter Q).map (fun k' =>
            (if r.path = k' then colOf c r else 0)
            + colSum c (List.filter (fun x => decide (x.path = k')) L))) := by
      apply List.map_congr_left
      intro k' _
      exact hstep k'
    rw [hmap, List.sum_map_add, ih hsub', sum_ite_key _ (hnd.filter Q)]
    rw [colSum_filter_cons]
    have hmemiff : r.path ∈ keys.filter Q ↔ Q r.path = true := by
      rw [List.mem_filter]
      constructor
      · rintro ⟨_, h⟩; exact h
      · intro h; exact ⟨hsub r (List.mem_cons_self _ _), h⟩
    by_cases hq : Q r.path = true
    · rw [if_pos (hmemiff.mpr hq), hq, if_pos rfl]
    · have : r.path ∉ keys.filter Q := fun h => hq (hmemiff.mp h)
      rw [if_neg this]
      have hqf : Q r.path = false := Bool.eq_false_iff.mpr (fun h => hq h)
      rw [hqf]
      simp
/-! ### The level loop: closed form for the summed columns -/

theorem rekey_filter_pred (l : List Row) (g : String → Bool) :
    (rekey l).filter (fun r => g r.path)
      = (l.filter (fun r => decide (r.path ≠ "") && g r.parent)).map
          (fun r => { r with path := r.parent }) := by
  unfold rekey
  rw [List.filter_map, List.filter_filter]
  congr 1
  apply List.filter_congr
  intro r _
  show (g r.parent && decide (r.path ≠ "")) = (decide (r.path ≠ "") && g r.parent)
  rw [Bool.and_comm]

theorem frame_chain_sum (c : AggCol) (cur : List Row) (level : Nat) (k : String) :
    colSum c ((groupAgg cur level).filter (fun r => decide (k ∈ chain r.path)))
      = colSum c (cur.filter (fun r => decide (r.path ≠ "" ∧ k ∈ chain r.parent))) := by
  unfold groupAgg
  rw [List.filter_map]
  have h1 : colSum c ((keysOf (rekey cur)).filter
        ((fun r => decide (k ∈ chain r.path)) ∘ aggRow (rekey cur) level)
        |>.map (aggRow (rekey cur) level))
      = (((keysOf (rekey cur)).filter (fun k' => decide (k ∈ chain k'))).map
          (fun k' => colSum c ((rekey cur).filter (fun r => decide (r.path = k'))))).sum := by
    unfold colSum
    rw [List.map_map]
    congr 1
    apply List.map_congr_left
    intro k' _
    exact aggRow_col c (rekey cur) level k'
  rw [h1, sum_groupby _ (keysOf_nodup _) _ (fun r hr => mem_keysOf.mpr ⟨r, hr, rfl⟩)]
  rw [show (rekey cur).filter (fun r => decide (k ∈ chain r.path))
      = (cur.filter (fun r => decide (r.path ≠ "") && decide (k ∈ chain r.parent))).map
          (fun r => { r with path := r.parent })
    from rekey_filter_pred cur (fun s => decide (k ∈ chain s)), colSum_rekeyed]
  congr 1
  apply List.filter_congr
  intro r _
  show ((decide (r.path ≠ "")) && decide (k ∈ chain r.parent)) = decide (r.path ≠ "" ∧ k ∈ chain r.parent)
  rw [Bool.decide_and]

theorem path_length_le_maxPathLen {r : Row} {l : List Row} (h : r ∈ l) :
    r.path.length ≤ maxPathLen l := by
  induction l with
  | nil => cases h
  | cons a l ih =>
    unfold maxPathLen
    rcases List.mem_cons.mp h with h1 | h1
    · subst h1
      simp [List.foldr_cons, le_max_iff]
    · simp only [List.foldr_cons]
      have := ih h1
      unfold maxPathLen at this
      omega

theorem maxPathLen_lt_of_all {l : List Row} {n : Nat} (h0 : 0 < n)
    (hall : ∀ r ∈ l, r.path.length < n) : maxPathLen l < n := by
  induction l with
  | nil => simpa [maxPathLen]
  | cons a l ih =>
    unfold maxPathLen
    simp only [List.foldr_cons]
    have h1 := hall a (List.mem_cons_self _ _)
    have h2 : maxPathLen l < n := ih (fun r hr => hall r (List.mem_cons_of_mem _ hr))
    unfold maxPathLen at h2
    omega

theorem groupAgg_parent_dirname {cur : List Row} {level : Nat} :
    ∀ r' ∈ groupAgg cur level, r'.path ≠ "" → r'.parent = dirname r'.path := by
  intro r' hr' _
  unfold groupAgg at hr'
  rcases List.mem_map.mp hr' with ⟨k', _, hk⟩
  rw [← hk]
  rfl

theorem groupAgg_path_lt {cur : List Row} {level : Nat}
    (hp : ∀ r ∈ cur, r.path ≠ "" → r.parent = dirname r.path) :
    ∀ r' ∈ groupAgg cur level, r'.path.length < maxPathLen cur := by
  intro r' hr'
  unfold groupAgg at hr'
  rcases List.mem_map.mp hr' with ⟨k', hk'mem, hk⟩
  rcases mem_keys_rekey.mp hk'mem with ⟨r, hrl, hne, hpar⟩
  have h1 : k'.length < r.path.length := by
    rw [← hpar, hp r hrl hne]
    exact dirname_length_lt _ hne
  have h2 := path_length_le_maxPathLen hrl
  rw [← hk]
  show k'.length < maxPathLen cur
  omega

theorem aggLevels_colSum (c : AggCol) :
    ∀ (fuel : Nat) (cur : List Row) (level : Nat),
      (∀ r ∈ cur, r.path ≠ "" → r.parent = dirname r.path) →
      maxPathLen cur < fuel →
      ∀ k, colSum c (((aggLevels cur level fuel).flatten).filter (fun r => decide (r.path = k)))
        = colSum c (cur.filter (fun r => decide (k ∈ chain r.path))) := by
  intro fuel
  induction fuel with
  | zero => intro cur level _ hf; omega
  | succ fuel ih =>
    intro cur level hp hf k
    rw [show aggLevels cur level (fuel + 1)
        = if ((cur.filter (fun r => r.path ≠ "")).isEmpty : Bool) then []
          else groupAgg cur level :: aggLevels (groupAgg cur level) (level + 1) fuel from rfl]
    by_cases hemp : ((cur.filter (fun r => r.path ≠ "")).isEmpty : Bool) = true
    · rw [if_pos hemp]
      have hallempty : ∀ r ∈ cur, r.path = "" := by
        intro r hr
        by_contra hne
        have : r ∈ cur.filter (fun r => r.path ≠ "") :=
          List.mem_filter.mpr ⟨hr, by simpa using hne⟩
        rw [List.isEmpty_iff.mp hemp] at this
        cases this
      have hrhs : cur.filter (fun r => decide (k ∈ chain r.path)) = [] := by
        apply List.filter_eq_nil_iff.mpr
        intro r hr
        rw [hallempty r hr, chain_eq_nil]
        simp
      rw [hrhs]
      rfl
    · rw [if_neg hemp]
      simp only [List.flatten_cons, List.filter_append]
      rw [colSum_append]
      have hstrpos : ∀ p : String, p ≠ "" → 0 < p.length := by
        intro p hp'
        rcases p with ⟨data⟩
        cases data with
        | nil => exact absurd rfl hp'
        | cons c t => simp [String.length]
      have hmaxpos : 0 < maxPathLen cur := by
        cases hne : cur.filter (fun r => decide (r.path ≠ "")) with
        | nil => exact absurd (by rw [hne]; rfl) hemp
        | cons a t =>
          have ha : a ∈ cur.filter (fun r => decide (r.path ≠ "")) := by
            rw [hne]; exact List.mem_cons_self _ _
          rcases List.mem_filter.mp ha with ⟨hac, hane⟩
          have := hstrpos a.path (of_decide_eq_true hane)
          have := path_length_le_maxPathLen hac
          omega
      have hfuelpos : 0 < fuel := by omega
      have hmaxframe : maxPathLen (groupAgg cur level) < fuel := by
        apply maxPathLen_lt_of_all hfuelpos
        intro r' hr'
        have h1 := groupAgg_path_lt hp r' hr'
        omega
      rw [sum_col_groupAgg]
      rw [ih (groupAgg cur level) (level + 1) groupAgg_parent_dirname hmaxframe k]
      rw [frame_chain_sum]
      exact (sum_chain_split c cur hp k).symm
theorem aggLevels_nchildren :
    ∀ (fuel : Nat) (cur : List Row) (level : Nat),
      (∀ r ∈ cur, r.path ≠ "" → r.parent = dirname r.path) →
      maxPathLen cur < fuel →
      ∀ k, ((((aggLevels cur level fuel).flatten).filter
              (fun r => decide (r.path = k))).map (fun r => r.n_children)).sum
        = if level = 0
          then ((cur.filter (fun r => decide (r.path ≠ "" ∧ r.parent = k))).length : Int)
          else 0 := by
  intro fuel
  induction fuel with
  | zero => intro cur level _ hf; omega
  | succ fuel ih =>
    intro cur level hp hf k
    rw [show aggLevels cur level (fuel + 1)
        = if ((cur.filter (fun r => r.path ≠ "")).isEmpty : Bool) then []
          else groupAgg cur level :: aggLevels (groupAgg cur level) (level + 1) fuel from rfl]
    by_cases hemp : ((cur.filter (fun r => r.path ≠ "")).isEmpty : Bool) = true
    · rw [if_pos hemp]
      have hrhs : cur.filter (fun r => decide (r.path ≠ "" ∧ r.parent = k)) = [] := by
        apply List.filter_eq_nil_iff.mpr
        intro r hr
        simp only [decide_eq_true_eq]
        rintro ⟨hne, _⟩
        have : r ∈ cur.filter (fun r => r.path ≠ "") :=
          List.mem_filter.mpr ⟨hr, by simpa using hne⟩
        rw [List.isEmpty_iff.mp hemp] at this
        cases this
      rw [hrhs]
      simp
    · rw [if_neg hemp]
      simp only [List.flatten_cons, List.filter_append, List.map_append, List.sum_append]
      have hstrpos : ∀ p : String, p ≠ "" → 0 < p.length := by
        intro p hp'
        rcases p with ⟨data⟩
        cases data with
        | nil => exact absurd rfl hp'
        | cons c t => simp [String.length]
      have hmaxpos : 0 < maxPathLen cur := by
        cases hne : cur.filter (fun r => decide (r.path ≠ "")) with
        | nil => exact absurd (by rw [hne]; rfl) hemp
        | cons a t =>
          have ha : a ∈ cur.filter (fun r => decide (r.path ≠ "")) := by
            rw [hne]; exact List.mem_cons_self _ _
          rcases List.mem_filter.mp ha with ⟨hac, hane⟩
          have := hstrpos a.path (of_decide_eq_true hane)
          have := path_length_le_maxPathLen hac
          omega
      have hfuelpos : 0 < fuel := by omega
      have hmaxframe : maxPathLen (groupAgg cur level) < fuel := by
        apply maxPathLen_lt_of_all hfuelpos
        intro r' hr'
        have h1 := groupAgg_path_lt hp r' hr'
        omega
      rw [sum_nchildren_groupAgg]
      rw [ih (groupAgg cur level) (level + 1) groupAgg_parent_dirname hmaxframe k]
      simp

theorem aggLevels_path_chain :
    ∀ (fuel : Nat) (cur : List Row) (level : Nat),
      (∀ r ∈ cur, r.path ≠ "" → r.parent = dirname r.path) →
      ∀ r' ∈ (aggLevels cur level fuel).flatten,
        ∃ r ∈ cur, r.path ≠ "" ∧ r'.path ∈ chain r.path := by
  intro fuel
  induction fuel with
  | zero => intro cur level _ r' hr'; cases hr'
  | succ fuel ih =>
    intro cur level hp r' hr'
    rw [show aggLevels cur level (fuel + 1)
        = if ((cur.filter (fun r => r.path ≠ "")).isEmpty : Bool) then []
          else groupAgg cur level :: aggLevels (groupAgg cur level) (level + 1) fuel from rfl] at hr'
    by_cases hemp : ((cur.filter (fun r => r.path ≠ "")).isEmpty : Bool) = true
    · rw [if_pos hemp] at hr'; cases hr'
    · rw [if_neg hemp] at hr'
      rw [List.flatten_cons] at hr'
      have hframe : ∀ x ∈ groupAgg cur level, ∃ r ∈ cur, r.path ≠ "" ∧ x.path ∈ chain r.path := by
        intro x hx
        unfold groupAgg at hx
        rcases List.mem_map.mp hx with ⟨k', hk'mem, hk⟩
        rcases mem_keys_rekey.mp hk'mem with ⟨r, hrl, hne, hpar⟩
        refine ⟨r, hrl, hne, ?_⟩
        rw [← hk]
        show k' ∈ chain r.path
        rw [← hpar, hp r hrl hne]
        exact dirname_mem_chain hne
      rcases List.mem_append.mp hr' with h | h
      · exact hframe r' h
      · rcases ih (groupAgg cur level) (level + 1) groupAgg_parent_dirname r' h with
          ⟨rf, hrf, hrfne, hchain⟩
        rcases hframe rf hrf with ⟨r, hrl, hne, hchain2⟩
        exact ⟨r, hrl, hne, chain_trans hchain2 hchain⟩

theorem aggLevels_mtime_fwd :
    ∀ (fuel : Nat) (cur : List Row) (level : Nat),
      (∀ r ∈ cur, r.path ≠ "" → r.parent = dirname r.path) →
      maxPathLen cur < fuel →
      ∀ k m, m ∈ (((aggLevels cur level fuel).flatten).filter
            (fun r => decide (r.path = k))).map (fun r => r.mtime) →
        ∃ m' ∈ (cur.filter (fun r => decide (k ∈ chain r.path))).map (fun r => r.mtime),
          m ≤ m' := by
  intro fuel
  induction fuel with
  | zero => intro cur level _ hf; omega
  | succ fuel ih =>
    intro cur level hp hf k m hm
    rw [show aggLevels cur level (fuel + 1)
        = if ((cur.filter (fun r => r.path ≠ "")).isEmpty : Bool) then []
          else groupAgg cur level :: aggLevels (groupAgg cur level) (level + 1) fuel from rfl] at hm
    by_cases hemp : ((cur.filter (fun r => r.path ≠ "")).isEmpty : Bool) = true
    · rw [if_pos hemp] at hm; cases hm
    · rw [if_neg hemp] at hm
      simp only [List.flatten_cons, List.filter_append, List.map_append] at hm
      have hstrpos : ∀ p : String, p ≠ "" → 0 < p.length := by
        intro p hp'
        rcases p with ⟨data⟩
        cases data with
        | nil => exact absurd rfl hp'
        | cons c t => simp [String.length]
      have hmaxpos : 0 < maxPathLen cur := by
        cases hne : cur.filter (fun r => decide (r.path ≠ "")) with
        | nil => exact absurd (by rw [hne]; rfl) hemp
        | cons a t =>
          have ha : a ∈ cur.filter (fun r => decide (r.path ≠ "")) := by
            rw [hne]; exact List.mem_cons_self _ _
          rcases List.mem_filter.mp ha with ⟨hac, hane⟩
          have := hstrpos a.path (of_decide_eq_true hane)
          have := path_length_le_maxPathLen hac
          omega
      have hfuelpos : 0 < fuel := by omega
      have hmaxframe : maxPathLen (groupAgg cur level) < fuel := by
        apply maxPathLen_lt_of_all hfuelpos
        intro r' hr'
        have h1 := groupAgg_path_lt hp r' hr'
        omega
      rcases List.mem_append.mp hm with h | h
      · rcases mtime_groupAgg_fwd cur level k m h with ⟨m', hm', hle⟩
        rcases List.mem_map.mp hm' with ⟨r, hrf, hrm⟩
        rcases List.mem_filter.mp hrf with ⟨hrl, hcond⟩
        rcases of_decide_eq_true hcond with ⟨hne, hpar⟩
        refine ⟨m', List.mem_map.mpr ⟨r, List.mem_filter.mpr ⟨hrl, ?_⟩, hrm⟩, hle⟩
        rw [decide_eq_true_eq, ← hpar, hp r hrl hne]
        exact dirname_mem_chain hne
      · rcases ih (groupAgg cur level) (level + 1) groupAgg_parent_dirname hmaxframe k m h with
          ⟨m', hm', hle⟩
        rcases List.mem_map.mp hm' with ⟨r', hr'f, hr'm⟩
        rcases List.mem_filter.mp hr'f with ⟨hr'fr, hr'cond⟩
        have hchain : k ∈ chain r'.path := of_decide_eq_true hr'cond
        have hm'in : m' ∈ ((groupAgg cur level).filter
            (fun r => decide (r.path = r'.path))).map (fun r => r.mtime) :=
          List.mem_map.mpr ⟨r', List.mem_filter.mpr ⟨hr'fr, by simp⟩, hr'm⟩
        rcases mtime_groupAgg_fwd cur level r'.path m' hm'in with ⟨m'', hm'', hle2⟩
        rcases List.mem_map.mp hm'' with ⟨r'', hr''f, hr''m⟩
        rcases List.mem_filter.mp hr''f with ⟨hr''l, hr''cond⟩
        rcases of_decide_eq_true hr''cond with ⟨hne'', hpar''⟩
        refine ⟨m'', List.mem_map.mpr ⟨r'', List.mem_filter.mpr ⟨hr''l, ?_⟩, hr''m⟩,
          le_trans hle hle2⟩
        rw [decide_eq_true_eq]
        rw [chain_eq_cons hne'']
        apply List.mem_cons_of_mem
        rw [← hp r'' hr''l hne'', hpar'']
        exact hchain

theorem aggLevels_mtime_bwd :
    ∀ (fuel : Nat) (cur : List Row) (level : Nat),
      (∀ r ∈ cur, r.path ≠ "" → r.parent = dirname r.path) →
      maxPathLen cur < fuel →
      ∀ k m, m ∈ (cur.filter (fun r => decide (k ∈ chain r.path))).map (fun r => r.mtime) →
        ∃ m' ∈ (((aggLevels cur level fuel).flatten).filter
              (fun r => decide (r.path = k))).map (fun r => r.mtime),
          m ≤ m' := by
  intro fuel
  induction fuel with
  | zero => intro cur level _ hf; omega
  | succ fuel ih =>
    intro cur level hp hf k m hm
    rcases List.mem_map.mp hm with ⟨r, hrf, hrm⟩
    rcases List.mem_filter.mp hrf with ⟨hrl, hrcond⟩
    have hchain : k ∈ chain r.path := of_decide_eq_true hrcond
    have hne : r.path ≠ "" := mem_chain_ne_empty hchain
    have hemp : ¬ ((cur.filter (fun r => r.path ≠ "")).isEmpty : Bool) = true := by
      intro hempty
      have : r ∈ cur.filter (fun r => r.path ≠ "") :=
        List.mem_filter.mpr ⟨hrl, by simpa using hne⟩
      rw [List.isEmpty_iff.mp hempty] at this
      cases this
    rw [show aggLevels cur level (fuel + 1)
        = if ((cur.filter (fun r => r.path ≠ "")).isEmpty : Bool) then []
          else groupAgg cur level :: aggLevels (groupAgg cur level) (level + 1) fuel from rfl]
    rw [if_neg hemp]
    simp only [List.flatten_cons, List.filter_append, List.map_append]
    have hstrpos : ∀ p : String, p ≠ "" → 0 < p.length := by
      intro p hp'
      rcases p with ⟨data⟩
      cases data with
      | nil => exact absurd rfl hp'
      | cons c t => simp [String.length]
    have hmaxpos : 0 < maxPathLen cur := by
      have := hstrpos r.path hne
      have := path_length_le_maxPathLen hrl
      omega
    have hfuelpos : 0 < fuel := by omega
    have hmaxframe : maxPathLen (groupAgg cur level) < fuel := by
      apply maxPathLen_lt_of_all hfuelpos
      intro r' hr'
      have h1 := groupAgg_path_lt hp r' hr'
      omega
    have hpar := hp r hrl hne
    rw [chain_eq_cons hne] at hchain
    rcases List.mem_cons.mp hchain with hdir | hdeep
    · have hmem1 : m ∈ (cur.filter
          (fun x => decide (x.path ≠ "" ∧ x.parent = k))).map (fun x => x.mtime) := by
        refine List.mem_map.mpr ⟨r, List.mem_filter.mpr ⟨hrl, ?_⟩, hrm⟩
        rw [decide_eq_true_eq]
        exact ⟨hne, by rw [hpar, ← hdir]⟩
      rcases mtime_groupAgg_bwd cur level k m hmem1 with ⟨m', hm', hle⟩
      exact ⟨m', List.mem_append.mpr (Or.inl hm'), hle⟩
    · set k' := dirname r.path with hk'
      have hmem1 : m ∈ (cur.filter
          (fun x => decide (x.path ≠ "" ∧ x.parent = k'))).map (fun x => x.mtime) := by
        refine List.mem_map.mpr ⟨r, List.mem_filter.mpr ⟨hrl, ?_⟩, hrm⟩
        rw [decide_eq_true_eq]
        exact ⟨hne, hpar⟩
      rcases mtime_groupAgg_bwd cur level k' m hmem1 with ⟨m', hm', hle⟩
      rcases List.mem_map.mp hm' with ⟨rf, hrff, hrfm⟩
      rcases List.mem_filter.mp hrff with ⟨hrfmem, hrfcond⟩
      have hrfpath : rf.path = k' := of_decide_eq_true hrfcond
      have hm'in : m' ∈ ((groupAgg cur level).filter
          (fun x => decide (k ∈ chain x.path))).map (fun x => x.mtime) := by
        refine List.mem_map.mpr ⟨rf, List.mem_filter.mpr ⟨hrfmem, ?_⟩, hrfm⟩
        rw [decide_eq_true_eq, hrfpath]
        exact hdeep
      rcases ih (groupAgg cur level) (level + 1) groupAgg_parent_dirname hmaxframe k m' hm'in with
        ⟨m'', hm'', hle2⟩
      exact ⟨m'', List.mem_append.mpr (Or.inr hm''), le_trans hle hle2⟩
theorem hpar_raw {recs : List Rec}
    (hpar : ∀ e ∈ recs, e.path ≠ "" → e.parent = dirname e.path) :
    ∀ r ∈ rawOf recs, r.path ≠ "" → r.parent = dirname r.path := by
  intro r hr
  rcases List.mem_map.mp hr with ⟨e, he, rfl⟩
  exact hpar e he

theorem hkind_raw {recs : List Rec}
    (hkind : ∀ e ∈ recs, e.kind = "file" ∨ e.kind = "dir") :
    ∀ r ∈ rawOf recs, r.kind = "file" ∨ r.kind = "dir" := by
  intro r hr
  rcases List.mem_map.mp hr with ⟨e, he, rfl⟩
  exact hkind e he

theorem index_df_eq_of_root (recs : List Rec) (path0 : String)
    (hroot : ∃ e ∈ recs, e.kind = "dir" ∧ e.path = "") :
    index_df recs path0
      = (sortRows ((keysOf (dirsConcatOf recs)).map (dirRowOf recs path0)
          ++ filesOf recs)).map withDepth := by
  obtain ⟨e, he, hkind, _⟩ := hroot
  have hraw : (recs.map collect).isEmpty = false := by
    cases recs with
    | nil => cases he
    | cons a t => rfl
  have hdmem : collect e ∈ dirs0Of recs := by
    unfold dirs0Of rawOf
    refine List.mem_filter.mpr ⟨List.mem_map_of_mem _ he, ?_⟩
    show decide ((collect e).kind = "dir") = true
    rw [show (collect e).kind = e.kind from rfl, hkind]
    rfl
  have hdc : (dirsConcatOf recs).isEmpty = false := by
    unfold dirsConcatOf
    cases hd : dirs0Of recs with
    | nil => rw [hd] at hdmem; cases hdmem
    | cons a t => rfl
  simp only [index_df]
  rw [hraw]
  simp only [Bool.false_eq_true, if_false]
  rw [show ((recs.map collect).filter (fun r => r.kind = "dir")
        ++ (aggLevels (recs.map collect) 0 (maxPathLen (recs.map collect) + 1)).flatten)
      = dirsConcatOf recs from rfl]
  rw [hdc]
  simp only [Bool.false_eq_true, if_false]
  rw [show (recs.map collect).filter (fun r => r.kind = "file") = filesOf recs from rfl]
  simp only [finalGroup, List.map_map]
  rfl

theorem mem_keys_dirsConcat {recs : List Rec}
    (hpar : ∀ e ∈ recs, e.path ≠ "" → e.parent = dirname e.path)
    (hclosed : ∀ e ∈ recs, ∀ k ∈ chain e.path, ∃ e2 ∈ recs, e2.kind = "dir" ∧ e2.path = k)
    {k : String} :
    k ∈ keysOf (dirsConcatOf recs) ↔ ∃ e ∈ recs, e.kind = "dir" ∧ e.path = k := by
  constructor
  · intro hk
    rcases mem_keysOf.mp hk with ⟨r, hr, hpath⟩
    unfold dirsConcatOf at hr
    rcases List.mem_append.mp hr with h | h
    · unfold dirs0Of rawOf at h
      rcases List.mem_filter.mp h with ⟨hrraw, hk2⟩
      rcases List.mem_map.mp hrraw with ⟨e2, he2, rfl⟩
      exact ⟨e2, he2, of_decide_eq_true hk2, hpath⟩
    · unfold framesJoin at h
      rcases aggLevels_path_chain _ (rawOf recs) 0 (hpar_raw hpar) r h with ⟨r0, hr0, _, hchain⟩
      rcases List.mem_map.mp hr0 with ⟨e0, he0, rfl⟩
      rcases hclosed e0 he0 r.path hchain with ⟨e2, he2, hk2, hp2⟩
      exact ⟨e2, he2, hk2, by rw [hp2, hpath]⟩
  · rintro ⟨e2, he2, hk2, hp2⟩
    apply mem_keysOf.mpr
    refine ⟨collect e2, List.mem_append.mpr (Or.inl ?_), hp2⟩
    unfold dirs0Of rawOf
    refine List.mem_filter.mpr ⟨List.mem_map_of_mem _ he2, ?_⟩
    show decide ((collect e2).kind = "dir") = true
    rw [show (collect e2).kind = e2.kind from rfl, hk2]
    rfl

theorem chain_sub_keys {recs : List Rec}
    (hpar : ∀ e ∈ recs, e.path ≠ "" → e.parent = dirname e.path)
    (hclosed : ∀ e ∈ recs, ∀ k ∈ chain e.path, ∃ e2 ∈ recs, e2.kind = "dir" ∧ e2.path = k) :
    ∀ r ∈ rawOf recs, ∀ x ∈ chain r.path, x ∈ keysOf (dirsConcatOf recs) := by
  intro r hr x hx
  rcases List.mem_map.mp hr with ⟨e, he, rfl⟩
  rcases hclosed e he x hx with ⟨e2, he2, hk2, hp2⟩
  exact (mem_keys_dirsConcat hpar hclosed).mpr ⟨e2, he2, hk2, hp2⟩

theorem keys_no_dot {recs : List Rec}
    (hpar : ∀ e ∈ recs, e.path ≠ "" → e.parent = dirname e.path)
    (hnodot : ∀ e ∈ recs, e.path ≠ "." ∧ "." ∉ chain e.path) :
    ∀ k ∈ keysOf (dirsConcatOf recs), k ≠ "." ∧ "." ∉ chain k := by
  intro k hk
  rcases mem_keysOf.mp hk with ⟨r, hr, hpath⟩
  unfold dirsConcatOf at hr
  rcases List.mem_append.mp hr with h | h
  · unfold dirs0Of rawOf at h
    rcases List.mem_filter.mp h with ⟨hrraw, _⟩
    rcases List.mem_map.mp hrraw with ⟨e, he, rfl⟩
    rcases hnodot e he with ⟨h1, h2⟩
    rw [← hpath]
    exact ⟨h1, h2⟩
  · unfold framesJoin at h
    rcases aggLevels_path_chain _ (rawOf recs) 0 (hpar_raw hpar) r h with ⟨r0, hr0, _, hchain⟩
    rcases List.mem_map.mp hr0 with ⟨e0, he0, rfl⟩
    rcases hnodot e0 he0 with ⟨_, h2⟩
    rw [← hpath]
    constructor
    · intro hdot
      exact h2 (hdot ▸ hchain)
    · intro hdot
      exact h2 (chain_trans hchain hdot)

theorem rec_path_inj {recs : List Rec} (hnodup : (recs.map Rec.path).Nodup) :
    ∀ x ∈ recs, ∀ y ∈ recs, x.path = y.path → x = y :=
  fun _ hx _ hy hxy => List.inj_on_of_nodup_map hnodup hx hy hxy

theorem filter_eq_single (recs : List Rec) (hnodup : (recs.map Rec.path).Nodup)
    (q : Rec → Bool) (own : Rec) (hown : own ∈ recs) (hq : q own = true)
    (himp : ∀ e ∈ recs, q e = true → e.path = own.path) :
    recs.filter q = [own] := by
  induction recs with
  | nil => cases hown
  | cons a t ih =>
    rcases List.nodup_cons.mp hnodup with ⟨ha, ht⟩
    rcases List.mem_cons.mp hown with rfl | howna
    · rw [List.filter_cons_of_pos hq]
      congr 1
      apply List.filter_eq_nil_iff.mpr
      intro e he hqe
      have hpe := himp e (List.mem_cons_of_mem _ he) hqe
      exact absurd (hpe ▸ List.mem_map_of_mem Rec.path he) ha
    · have hqa : ¬ (q a = true) := by
        intro hqa
        have hap := himp a (List.mem_cons_self _ _) hqa
        exact ha (hap ▸ List.mem_map_of_mem Rec.path howna)
      rw [List.filter_cons_of_neg hqa]
      exact ih ht howna (fun e he hqe => himp e (List.mem_cons_of_mem _ he) hqe)

theorem dirs0_filter_key {recs : List Rec} (hnodup : (recs.map Rec.path).Nodup)
    {own : Rec} (hown : own ∈ recs) (hkind : own.kind = "dir") :
    (dirs0Of recs).filter (fun r => decide (r.path = own.path)) = [collect own] := by
  unfold dirs0Of rawOf
  rw [List.filter_map, List.filter_map, List.filter_filter]
  rw [filter_eq_single recs hnodup
      (fun a => ((fun r => decide (r.path = own.path)) ∘ collect) a
        && ((fun r => decide (r.kind = "dir")) ∘ collect) a) own hown
      (by
        show (decide (own.path = own.path) && decide (own.kind = "dir")) = true
        rw [hkind]
        simp)
      (by
        intro e _ hq
        simp only [Function.comp, Bool.and_eq_true] at hq
        exact of_decide_eq_true hq.1)]
  rfl

theorem filesOf_path_ne {recs : List Rec} (hnodup : (recs.map Rec.path).Nodup)
    (hroot : ∃ e ∈ recs, e.kind = "dir" ∧ e.path = "") :
    ∀ r ∈ filesOf recs, r.path ≠ "" := by
  obtain ⟨e0, he0, hk0, hp0⟩ := hroot
  intro r hr
  unfold filesOf rawOf at hr
  rcases List.mem_filter.mp hr with ⟨hraw, hkind⟩
  rcases List.mem_map.mp hraw with ⟨e, he, rfl⟩
  intro hpe
  have hee : e = e0 := rec_path_inj hnodup e he e0 he0 (by
    rw [show (collect e).path = e.path from rfl] at hpe
    rw [hpe, hp0])
  have h1 : e.kind = "file" := of_decide_eq_true hkind
  rw [hee, hk0] at h1
  exact absurd h1 (by decide)

theorem chain_nodup (p : String) : (chain p).Nodup := by
  by_cases hp : p = ""
  · rw [hp, chain_eq_nil]; exact List.nodup_nil
  · rw [chain_eq_cons hp]
    refine List.nodup_cons.mpr ⟨?_, chain_nodup (dirname p)⟩
    intro hmem
    exact absurd rfl (ne_of_mem_chain hmem)
termination_by p.length
decreasing_by exact dirname_length_lt p hp

theorem countP_chain_Q (k p : String) :
    List.countP (fun k2 => decide (k2 ≠ "" ∧ dirname k2 = k)) (chain p)
      = if p ≠ "" ∧ k ∈ chain (dirname p) then 1 else 0 := by
  by_cases hp : p = ""
  · rw [hp, chain_eq_nil]
    simp
  · have h := countP_chain_dirname k p hp
    by_cases hdk : dirname p = k
    · rw [if_pos hdk] at h
      have hkc : k ∈ chain p := hdk ▸ dirname_mem_chain hp
      rw [if_pos hkc] at h
      have hnot : ¬ (k ∈ chain (dirname p)) := by
        rw [← hdk]
        intro hc
        exact (ne_of_mem_chain hc) rfl
      rw [if_neg (by rintro ⟨_, hc⟩; exact hnot hc)]
      omega
    · rw [if_neg hdk, Nat.add_zero] at h
      rw [h]
      have hiff : k ∈ chain p ↔ k ∈ chain (dirname p) := by
        rw [chain_eq_cons hp, List.mem_cons]
        constructor
        · rintro (h1 | h1)
          · exact absurd h1.symm hdk
          · exact h1
        · exact fun h1 => Or.inr h1
      by_cases hm : k ∈ chain (dirname p)
      · rw [if_pos (hiff.mpr hm), if_pos ⟨hp, hm⟩]
      · rw [if_neg (fun hc => hm (hiff.mp hc)), if_neg (by rintro ⟨_, hc⟩; exact hm hc)]

theorem exists_chain_Q {k p : String} :
    (∃ k2 ∈ chain p, k2 ≠ "" ∧ dirname k2 = k) ↔ (p ≠ "" ∧ k ∈ chain (dirname p)) := by
  constructor
  · rintro ⟨k2, hk2, hcond⟩
    have hpos : 0 < List.countP (fun k2 => decide (k2 ≠ "" ∧ dirname k2 = k)) (chain p) :=
      List.countP_pos_iff.mpr ⟨k2, hk2, decide_eq_true hcond⟩
    rw [countP_chain_Q] at hpos
    by_cases h : p ≠ "" ∧ k ∈ chain (dirname p)
    · exact h
    · rw [if_neg h] at hpos
      omega
  · intro h
    have hpos : 0 < List.countP (fun k2 => decide (k2 ≠ "" ∧ dirname k2 = k)) (chain p) := by
      rw [countP_chain_Q, if_pos h]
      omega
    rcases List.countP_pos_iff.mp hpos with ⟨k2, hk2, hcond⟩
    exact ⟨k2, hk2, of_decide_eq_true hcond⟩

/-! ### Stage 4b: regrouping the descendant sums over the final keys -/

theorem sum_map_ite_const {α : Type} (ks : List α) (g : α → Bool) (v : Int) :
    (ks.map (fun k => if g k then v else 0)).sum = ((ks.filter g).length : Int) * v := by
  induction ks with
  | nil => simp
  | cons a t ih =>
    simp only [List.map_cons, List.sum_cons, ih, List.filter_cons]
    by_cases h : g a
    · rw [if_pos h, if_pos h]
      simp only [List.length_cons]
      push_cast
      ring
    · rw [if_neg h, if_neg h]
      ring

theorem sum_over_keys_eq {α : Type} (ks : List α) (L : List Row) (c : AggCol)
    (f : α → Row → Bool) :
    (ks.map (fun k2 => colSum c (L.filter (f k2)))).sum
      = (L.map (fun r => ((ks.filter (fun k2 => f k2 r)).length : Int) * colOf c r)).sum := by
  induction L with
  | nil =>
    rw [show (List.map (fun r : Row => ((ks.filter (fun k2 => f k2 r)).length : Int) * colOf c r)
        []).sum = 0 from rfl]
    apply List.sum_eq_zero
    intro x hx
    rcases List.mem_map.mp hx with ⟨k2, _, hk⟩
    rw [← hk]
    rfl
  | cons r L ih =>
    have hmap : ks.map (fun k2 => colSum c ((r :: L).filter (f k2)))
        = ks.map (fun k2 => (if f k2 r then colOf c r else 0) + colSum c (L.filter (f k2))) :=
      List.map_congr_left (fun k2 _ => colSum_filter_cons c (f k2) r L)
    rw [hmap, List.sum_map_add, ih, sum_map_ite_const, List.map_cons, List.sum_cons]

theorem sum_ite_mul (L : List Row) (q : Row → Bool) (c : AggCol) :
    (L.map (fun r => (if q r then (1:Int) else 0) * colOf c r)).sum = colSum c (L.filter q) := by
  induction L with
  | nil => rfl
  | cons r L ih =>
    simp only [List.map_cons, List.sum_cons, List.filter_cons]
    by_cases h : q r
    · rw [if_pos h, if_pos h, one_mul, colSum_cons, ih]
    · rw [if_neg h, if_neg h, zero_mul, zero_add, ih]

theorem sum_keys_chain_eq (recs : List Rec)
    (hpar : ∀ e ∈ recs, e.path ≠ "" → e.parent = dirname e.path)
    (hclosed : ∀ e ∈ recs, ∀ k ∈ chain e.path, ∃ e2 ∈ recs, e2.kind = "dir" ∧ e2.path = k)
    (c : AggCol) (k : String) :
    ((dirChildKeys recs k).map
        (fun k2 => colSum c ((rawOf recs).filter (fun r => decide (k2 ∈ chain r.path))))).sum
      = colSum c ((rawOf recs).filter (fun r => decide (r.path ≠ "" ∧ k ∈ chain r.parent))) := by
  rw [sum_over_keys_eq (dirChildKeys recs k) (rawOf recs) c
      (fun k2 r => decide (k2 ∈ chain r.path))]
  have hpoint : ∀ r ∈ rawOf recs,
      (((dirChildKeys recs k).filter (fun k2 => decide (k2 ∈ chain r.path))).length : Int)
          * colOf c r
        = (if (fun r : Row => decide (r.path ≠ "" ∧ k ∈ chain r.parent)) r
            then (1:Int) else 0) * colOf c r := by
    intro r hr
    congr 1
    have hperm : ((dirChildKeys recs k).filter (fun k2 => decide (k2 ∈ chain r.path))).Perm
        ((chain r.path).filter (fun k2 => decide (k2 ≠ "" ∧ dirname k2 = k))) := by
      apply (List.perm_ext_iff_of_nodup
        (((keysOf_nodup (dirsConcatOf recs)).filter _).filter _)
        ((chain_nodup r.path).filter _)).mpr
      intro x
      simp only [List.mem_filter, decide_eq_true_eq]
      constructor
      · rintro ⟨⟨_, hq⟩, hc⟩
        exact ⟨hc, hq⟩
      · rintro ⟨hc, hq⟩
        exact ⟨⟨chain_sub_keys hpar hclosed r hr x hc, hq⟩, hc⟩
    rw [hperm.length_eq, ← List.countP_eq_length_filter, countP_chain_Q]
    show ((if r.path ≠ "" ∧ k ∈ chain (dirname r.path) then 1 else 0 : Nat) : Int)
        = if decide (r.path ≠ "" ∧ k ∈ chain r.parent) = true then (1:Int) else 0
    by_cases hm : r.path ≠ "" ∧ k ∈ chain r.parent
    · obtain ⟨hne, hmc⟩ := hm
      have hdec : (decide (r.path ≠ "" ∧ k ∈ chain r.parent)) = true :=
        decide_eq_true ⟨hne, hmc⟩
      have hcond : r.path ≠ "" ∧ k ∈ chain (dirname r.path) := by
        refine ⟨hne, ?_⟩
        rw [← hpar_raw hpar r hr hne]
        exact hmc
      rw [if_pos hcond, hdec, if_pos rfl]
      simp
    · have hdec : (decide (r.path ≠ "" ∧ k ∈ chain r.parent)) = false :=
        decide_eq_false hm
      have hcond : ¬ (r.path ≠ "" ∧ k ∈ chain (dirname r.path)) := by
        rintro ⟨hne, hmc⟩
        exact hm ⟨hne, by rw [hpar_raw hpar r hr hne]; exact hmc⟩
      rw [if_neg hcond, hdec]
      simp
  rw [List.map_congr_left hpoint, sum_ite_mul]

theorem descSum_eq (recs : List Rec)
    (hpar : ∀ e ∈ recs, e.path ≠ "" → e.parent = dirname e.path)
    (hclosed : ∀ e ∈ recs, ∀ k ∈ chain e.path, ∃ e2 ∈ recs, e2.kind = "dir" ∧ e2.path = k)
    (c : AggCol) (k : String) :
    colSum c ((rawOf recs).filter (fun r => decide (k ∈ chain r.path)))
      = colSum c ((rawOf recs).filter (fun r => decide (r.path ≠ "" ∧ r.parent = k)))
        + ((dirChildKeys recs k).map
            (fun k2 => colSum c ((rawOf recs).filter (fun r => decide (k2 ∈ chain r.path))))).sum := by
  rw [sum_keys_chain_eq recs hpar hclosed c k]
  exact sum_chain_split c (rawOf recs) (hpar_raw hpar) k

theorem colSum_split_kind (L : List Row)
    (hkind : ∀ r ∈ L, r.kind = "file" ∨ r.kind = "dir") (p : Row → Bool) (c : AggCol) :
    colSum c (L.filter p)
      = colSum c ((L.filter (fun r => r.kind = "file")).filter p)
        + colSum c ((L.filter (fun r => r.kind = "dir")).filter p) := by
  induction L with
  | nil => rfl
  | cons r L ih =>
    have ihl := ih (fun x hx => hkind x (List.mem_cons_of_mem _ hx))
    rcases hkind r (List.mem_cons_self _ _) with h | h
    · have h1 : (decide (r.kind = "file")) = true := decide_eq_true h
      have h2 : (decide (r.kind = "dir")) = false := by
        rw [h]
        rfl
      simp only [List.filter_cons, h1, h2, Bool.false_eq_true, if_true, if_false]
      by_cases hp : p r
      · simp only [List.filter_cons, hp, if_true, colSum_cons, ihl]
        ring
      · simp only [List.filter_cons, hp, Bool.false_eq_true, if_false, ihl]
    · have h1 : (decide (r.kind = "file")) = false := by
        rw [h]
        rfl
      have h2 : (decide (r.kind = "dir")) = true := decide_eq_true h
      simp only [List.filter_cons, h1, h2, Bool.false_eq_true, if_true, if_false]
      by_cases hp : p r
      · simp only [List.filter_cons, hp, if_true, colSum_cons, ihl]
        ring
      · simp only [List.filter_cons, hp, Bool.false_eq_true, if_false, ihl]

theorem length_split_kind (L : List Row)
    (hkind : ∀ r ∈ L, r.kind = "file" ∨ r.kind = "dir") (p : Row → Bool) :
    (L.filter p).length
      = ((L.filter (fun r => r.kind = "file")).filter p).length
        + ((L.filter (fun r => r.kind = "dir")).filter p).length := by
  induction L with
  | nil => rfl
  | cons r L ih =>
    have ihl := ih (fun x hx => hkind x (List.mem_cons_of_mem _ hx))
    rcases hkind r (List.mem_cons_self _ _) with h | h
    · have h1 : (decide (r.kind = "file")) = true := decide_eq_true h
      have h2 : (decide (r.kind = "dir")) = false := by
        rw [h]
        rfl
      simp only [List.filter_cons, h1, h2, Bool.false_eq_true, if_true, if_false]
      by_cases hp : p r
      · simp only [List.filter_cons, hp, if_true, List.length_cons, ihl]
        omega
      · simp only [List.filter_cons, hp, Bool.false_eq_true, if_false, ihl]
    · have h1 : (decide (r.kind = "file")) = false := by
        rw [h]
        rfl
      have h2 : (decide (r.kind = "dir")) = true := decide_eq_true h
      simp only [List.filter_cons, h1, h2, Bool.false_eq_true, if_true, if_false]
      by_cases hp : p r
      · simp only [List.filter_cons, hp, if_true, List.length_cons, ihl]
        omega
      · simp only [List.filter_cons, hp, Bool.false_eq_true, if_false, ihl]

theorem finalRow_colOf (recs : List Rec)
    (hpar : ∀ e ∈ recs, e.path ≠ "" → e.parent = dirname e.path)
    (c : AggCol) (k : String) :
    colOf c (finalRow (dirsConcatOf recs) k)
      = colSum c ((dirs0Of recs).filter (fun r => decide (r.path = k)))
        + colSum c ((rawOf recs).filter (fun r => decide (k ∈ chain r.path))) := by
  have h1 : colOf c (finalRow (dirsConcatOf recs) k)
      = colSum c ((dirsConcatOf recs).filter (fun r => decide (r.path = k))) := by
    cases c <;> rfl
  rw [h1]
  unfold dirsConcatOf
  rw [List.filter_append, colSum_append]
  congr 1
  unfold framesJoin
  exact aggLevels_colSum c (maxPathLen (rawOf recs) + 1) (rawOf recs) 0 (hpar_raw hpar)
    (Nat.lt_succ_self _) k

theorem finalRow_nchildren (recs : List Rec)
    (hpar : ∀ e ∈ recs, e.path ≠ "" → e.parent = dirname e.path) (k : String) :
    (finalRow (dirsConcatOf recs) k).n_children
      = (((dirs0Of recs).filter (fun r => decide (r.path = k))).map
          (fun r => r.n_children)).sum
        + (((rawOf recs).filter
            (fun r => decide (r.path ≠ "" ∧ r.parent = k))).length : Int) := by
  have h1 : (finalRow (dirsConcatOf recs) k).n_children
      = (((dirsConcatOf recs).filter (fun r => decide (r.path = k))).map
          (fun r => r.n_children)).sum := rfl
  rw [h1]
  unfold dirsConcatOf
  rw [List.filter_append, List.map_append, List.sum_append]
  congr 1
  unfold framesJoin
  rw [aggLevels_nchildren (maxPathLen (rawOf recs) + 1) (rawOf recs) 0 (hpar_raw hpar)
    (Nat.lt_succ_self _) k]
  rfl

theorem finalRow_mtime (recs : List Rec) (k : String) :
    (finalRow (dirsConcatOf recs) k).mtime
      = intMax (((dirsConcatOf recs).filter (fun r => decide (r.path = k))).map
          (fun r => r.mtime)) := rfl

theorem depthOf_eq_zero {p : String} : depthOf p = 0 ↔ p = "." := by
  unfold depthOf
  by_cases h : p = "." <;> simp [h]

theorem withDepth_path (r : Row) : (withDepth r).path = r.path := rfl

theorem withDepth_parent (r : Row) : (withDepth r).parent = r.parent := rfl

theorem withDepth_kind (r : Row) : (withDepth r).kind = r.kind := rfl

theorem withDepth_colOf (c : AggCol) (r : Row) : colOf c (withDepth r) = colOf c r := by
  cases c <;> rfl

theorem withDepth_depth (r : Row) : (withDepth r).depth = depthOf r.path := rfl

theorem dirRow_path (recs : List Rec) (path0 k : String) :
    (dirRowOf recs path0 k).path = if k = "" then "." else k := by
  unfold dirRowOf setUri fixRootPath fixTopParent
  by_cases hk : k = ""
  · subst hk
    simp [finalRow, show dirname "" = "" from rfl]
  · simp only [finalRow]
    by_cases hd : dirname k = "" <;> simp [hd, hk]

theorem dirRow_parent (recs : List Rec) (path0 k : String) :
    (dirRowOf recs path0 k).parent
      = if k = "" then "" else (if dirname k = "" then "." else dirname k) := by
  unfold dirRowOf setUri fixRootPath fixTopParent
  by_cases hk : k = ""
  · subst hk
    simp [finalRow, show dirname "" = "" from rfl]
  · simp only [finalRow]
    by_cases hd : dirname k = "" <;> simp [hd, hk]

theorem dirRow_kind (recs : List Rec) (path0 k : String) :
    (dirRowOf recs path0 k).kind = "dir" := by
  unfold dirRowOf setUri fixRootPath fixTopParent
  by_cases hk : k = "" <;> by_cases hd : dirname k = "" <;>
    simp [finalRow, hk, hd, show dirname "" = "" from rfl]

theorem dirRow_colOf (recs : List Rec) (path0 k : String) (c : AggCol) :
    colOf c (dirRowOf recs path0 k) = colOf c (finalRow (dirsConcatOf recs) k) := by
  unfold dirRowOf setUri fixRootPath fixTopParent
  cases c <;>
    by_cases hk : (finalRow (dirsConcatOf recs) k).path = "" <;>
    by_cases hd : (finalRow (dirsConcatOf recs) k).parent = "" <;>
    simp [colOf, hk, hd]

theorem dirRow_mtime (recs : List Rec) (path0 k : String) :
    (dirRowOf recs path0 k).mtime = (finalRow (dirsConcatOf recs) k).mtime := by
  unfold dirRowOf setUri fixRootPath fixTopParent
  by_cases hk : (finalRow (dirsConcatOf recs) k).path = "" <;>
    by_cases hd : (finalRow (dirsConcatOf recs) k).parent = "" <;>
    simp [hk, hd]

theorem dirRow_nchildren (recs : List Rec) (path0 k : String) :
    (dirRowOf recs path0 k).n_children = (finalRow (dirsConcatOf recs) k).n_children := by
  unfold dirRowOf setUri fixRootPath fixTopParent
  by_cases hk : (finalRow (dirsConcatOf recs) k).path = "" <;>
    by_cases hd : (finalRow (dirsConcatOf recs) k).parent = "" <;>
    simp [hk, hd]

/-! ### Stage 4d: the children of a directory row of the persisted table -/

theorem dir_cond_root (recs : List Rec) (path0 : String)
    (hpar : ∀ e ∈ recs, e.path ≠ "" → e.parent = dirname e.path)
    (hnodot : ∀ e ∈ recs, e.path ≠ "." ∧ "." ∉ chain e.path) :
    ∀ k2 ∈ keysOf (dirsConcatOf recs),
      (decide ((withDepth (dirRowOf recs path0 k2)).parent = "."
        ∨ ((withDepth (dirRowOf recs path0 k2)).parent = ""
            ∧ (withDepth (dirRowOf recs path0 k2)).path ≠ ".")))
      = decide (k2 ≠ "" ∧ dirname k2 = "") := by
  intro k2 hk2
  rw [withDepth_parent, withDepth_path, dirRow_parent, dirRow_path, decide_eq_decide]
  rcases keys_no_dot hpar hnodot k2 hk2 with ⟨hdot, hcdot⟩
  by_cases h0 : k2 = ""
  · rw [if_pos h0, if_pos h0]
    constructor
    · rintro (h | ⟨_, h⟩)
      · exact absurd h (by decide)
      · exact absurd rfl h
    · rintro ⟨h, _⟩
      exact absurd h0 h
  · rw [if_neg h0, if_neg h0]
    by_cases hd : dirname k2 = ""
    · rw [if_pos hd]
      constructor
      · intro _
        exact ⟨h0, hd⟩
      · intro _
        exact Or.inl rfl
    · rw [if_neg hd]
      constructor
      · rintro (h | ⟨h, _⟩)
        · exact absurd (h ▸ dirname_mem_chain h0) hcdot
        · exact absurd h hd
      · rintro ⟨_, h⟩
        exact absurd h hd

theorem dir_cond_sub (recs : List Rec) (path0 : String) (k : String)
    (hkne : k ≠ "") (hknd : k ≠ ".") :
    ∀ k2 ∈ keysOf (dirsConcatOf recs),
      (decide ((withDepth (dirRowOf recs path0 k2)).parent = k))
      = decide (k2 ≠ "" ∧ dirname k2 = k) := by
  intro k2 _
  rw [withDepth_parent, dirRow_parent, decide_eq_decide]
  by_cases h0 : k2 = ""
  · rw [if_pos h0]
    constructor
    · intro h
      exact absurd h.symm hkne
    · rintro ⟨h, _⟩
      exact absurd h0 h
  · rw [if_neg h0]
    by_cases hd : dirname k2 = ""
    · rw [if_pos hd]
      constructor
      · intro h
        exact absurd h.symm hknd
      · rintro ⟨_, h⟩
        rw [hd] at h
        exact absurd h.symm hkne
    · rw [if_neg hd]
      constructor
      · intro h
        exact ⟨h0, h⟩
      · rintro ⟨_, h⟩
        exact h

theorem file_cond_root (recs : List Rec)
    (hpar : ∀ e ∈ recs, e.path ≠ "" → e.parent = dirname e.path)
    (hnodup : (recs.map Rec.path).Nodup)
    (hroot : ∃ e ∈ recs, e.kind = "dir" ∧ e.path = "")
    (hnodot : ∀ e ∈ recs, e.path ≠ "." ∧ "." ∉ chain e.path) :
    ∀ f ∈ filesOf recs,
      (decide ((withDepth f).parent = "."
        ∨ ((withDepth f).parent = "" ∧ (withDepth f).path ≠ ".")))
      = decide (f.path ≠ "" ∧ f.parent = "") := by
  intro f hf
  have hne := filesOf_path_ne hnodup hroot f hf
  have hfr : f ∈ rawOf recs := (List.mem_filter.mp (by
    unfold filesOf at hf
    exact hf)).1
  rcases List.mem_map.mp hfr with ⟨e, he, rfl⟩
  rcases hnodot e he with ⟨hpd, hcd⟩
  have hpar2 : (collect e).parent = dirname (collect e).path := hpar_raw hpar _ hfr hne
  rw [withDepth_parent, withDepth_path, decide_eq_decide]
  constructor
  · rintro (h | ⟨h, _⟩)
    · exfalso
      rw [hpar2] at h
      exact hcd (h ▸ dirname_mem_chain hne)
    · exact ⟨hne, h⟩
  · rintro ⟨_, hp⟩
    exact Or.inr ⟨hp, hpd⟩

theorem childrenOf_perm (recs : List Rec) (path0 : String)
    (hpar : ∀ e ∈ recs, e.path ≠ "" → e.parent = dirname e.path)
    (hnodup : (recs.map Rec.path).Nodup)
    (hclosed : ∀ e ∈ recs, ∀ k ∈ chain e.path, ∃ e2 ∈ recs, e2.kind = "dir" ∧ e2.path = k)
    (hroot : ∃ e ∈ recs, e.kind = "dir" ∧ e.path = "")
    (hnodot : ∀ e ∈ recs, e.path ≠ "." ∧ "." ∉ chain e.path)
    (k : String) (hk : k ∈ keysOf (dirsConcatOf recs)) :
    (childrenOf (index_df recs path0) (withDepth (dirRowOf recs path0 k))).Perm
      (((dirChildKeys recs k).map (fun k2 => withDepth (dirRowOf recs path0 k2)))
        ++ (fileChildRows recs k).map withDepth) := by
  have hTperm : (index_df recs path0).Perm
      (((keysOf (dirsConcatOf recs)).map (dirRowOf recs path0) ++ filesOf recs).map withDepth) := by
    rw [index_df_eq_of_root recs path0 hroot]
    exact (sortRows_perm _).map withDepth
  have hfne := filesOf_path_ne hnodup hroot
  have hfcond : ∀ f ∈ filesOf recs,
      (decide ((withDepth f).parent = k)) = decide (f.path ≠ "" ∧ f.parent = k) := by
    intro f hf
    rw [withDepth_parent, decide_eq_decide]
    constructor
    · intro h
      exact ⟨hfne f hf, h⟩
    · rintro ⟨_, h⟩
      exact h
  by_cases hk0 : k = ""
  · have hdp : (withDepth (dirRowOf recs path0 k)).path = "." := by
      rw [withDepth_path, dirRow_path, if_pos hk0]
    unfold childrenOf
    rw [if_pos hdp]
    refine (hTperm.filter _).trans (List.Perm.of_eq ?_)
    rw [List.map_append, List.filter_append, List.map_map, List.filter_map, List.filter_map]
    subst hk0
    rw [show List.filter
          ((fun r => decide (r.parent = "." ∨ r.parent = "" ∧ r.path ≠ "."))
            ∘ withDepth ∘ dirRowOf recs path0) (keysOf (dirsConcatOf recs))
        = List.filter (fun k2 => decide (k2 ≠ "" ∧ dirname k2 = ""))
            (keysOf (dirsConcatOf recs))
      from List.filter_congr (dir_cond_root recs path0 hpar hnodot)]
    rw [show List.filter
          ((fun r => decide (r.parent = "." ∨ r.parent = "" ∧ r.path ≠ "."))
            ∘ withDepth) (filesOf recs)
        = List.filter (fun r => decide (r.path ≠ "" ∧ r.parent = "")) (filesOf recs)
      from List.filter_congr (file_cond_root recs hpar hnodup hroot hnodot)]
    rfl
  · have hknd : k ≠ "." := (keys_no_dot hpar hnodot k hk).1
    have hdp : (withDepth (dirRowOf recs path0 k)).path = k := by
      rw [withDepth_path, dirRow_path, if_neg hk0]
    unfold childrenOf
    rw [if_neg (by rw [hdp]; exact hknd), hdp]
    refine (hTperm.filter _).trans (List.Perm.of_eq ?_)
    rw [List.map_append, List.filter_append, List.map_map, List.filter_map, List.filter_map]
    rw [show List.filter
          ((fun r => decide (r.parent = k)) ∘ withDepth ∘ dirRowOf recs path0)
          (keysOf (dirsConcatOf recs))
        = List.filter (fun k2 => decide (k2 ≠ "" ∧ dirname k2 = k))
            (keysOf (dirsConcatOf recs))
      from List.filter_congr (dir_cond_sub recs path0 k hk0 hknd)]
    rw [show List.filter ((fun r => decide (r.parent = k)) ∘ withDepth) (filesOf recs)
        = List.filter (fun r => decide (r.path ≠ "" ∧ r.parent = k)) (filesOf recs)
      from List.filter_congr hfcond]
    rfl

/-! ### Stage 4e: closed forms for the children sums -/

theorem children_colSum (recs : List Rec) (path0 : String)
    (hpar : ∀ e ∈ recs, e.path ≠ "" → e.parent = dirname e.path)
    (hkind : ∀ e ∈ recs, e.kind = "file" ∨ e.kind = "dir")
    (hnodup : (recs.map Rec.path).Nodup)
    (hclosed : ∀ e ∈ recs, ∀ k ∈ chain e.path, ∃ e2 ∈ recs, e2.kind = "dir" ∧ e2.path = k)
    (hroot : ∃ e ∈ recs, e.kind = "dir" ∧ e.path = "")
    (hnodot : ∀ e ∈ recs, e.path ≠ "." ∧ "." ∉ chain e.path)
    (k : String) (hk : k ∈ keysOf (dirsConcatOf recs)) (c : AggCol) :
    ((childrenOf (index_df recs path0) (withDepth (dirRowOf recs path0 k))).map (colOf c)).sum
      = colSum c ((rawOf recs).filter (fun r => decide (k ∈ chain r.path))) := by
  have hperm := childrenOf_perm recs path0 hpar hnodup hclosed hroot hnodot k hk
  rw [(hperm.map (colOf c)).sum_eq]
  rw [List.map_append, List.sum_append, List.map_map, List.map_map]
  have h1 : (dirChildKeys recs k).map (colOf c ∘ fun k2 => withDepth (dirRowOf recs path0 k2))
      = (dirChildKeys recs k).map (fun k2 =>
          colSum c ((dirsConcatOf recs).filter (fun r => decide (r.path = k2)))) := by
    apply List.map_congr_left
    intro k2 _
    show colOf c (withDepth (dirRowOf recs path0 k2)) = _
    rw [withDepth_colOf, dirRow_colOf]
    cases c <;> rfl
  rw [h1]
  rw [show dirChildKeys recs k
      = (keysOf (dirsConcatOf recs)).filter (fun k2 => decide (k2 ≠ "" ∧ dirname k2 = k))
    from rfl]
  rw [sum_groupby (keysOf (dirsConcatOf recs)) (keysOf_nodup _) (dirsConcatOf recs)
      (fun r hr => mem_keysOf.mpr ⟨r, hr, rfl⟩) (fun k2 => decide (k2 ≠ "" ∧ dirname k2 = k)) c]
  rw [show dirsConcatOf recs = dirs0Of recs ++ framesJoin recs from rfl]
  rw [List.filter_append, colSum_append]
  have h2 : (dirs0Of recs).filter (fun r => decide (r.path ≠ "" ∧ dirname r.path = k))
      = (dirs0Of recs).filter (fun r => decide (r.path ≠ "" ∧ r.parent = k)) := by
    apply List.filter_congr
    intro r hr
    have hrr : r ∈ rawOf recs := (List.mem_filter.mp hr).1
    rw [decide_eq_decide]
    constructor
    · rintro ⟨hne, hd⟩
      exact ⟨hne, by rw [hpar_raw hpar r hrr hne]; exact hd⟩
    · rintro ⟨hne, hp⟩
      exact ⟨hne, by rw [← hpar_raw hpar r hrr hne]; exact hp⟩
  have h3 : colSum c ((framesJoin recs).filter (fun r => decide (r.path ≠ "" ∧ dirname r.path = k)))
      = colSum c ((rawOf recs).filter (fun r => decide (r.path ≠ "" ∧ k ∈ chain r.parent))) := by
    rw [← sum_groupby (keysOf (dirsConcatOf recs)) (keysOf_nodup _) (framesJoin recs)
        (fun r hr => mem_keysOf.mpr ⟨r, List.mem_append.mpr (Or.inr hr), rfl⟩)
        (fun k2 => decide (k2 ≠ "" ∧ dirname k2 = k)) c]
    have h4 : ((keysOf (dirsConcatOf recs)).filter
          (fun k2 => decide (k2 ≠ "" ∧ dirname k2 = k))).map
          (fun k2 => colSum c ((framesJoin recs).filter (fun r => decide (r.path = k2))))
        = ((keysOf (dirsConcatOf recs)).filter
            (fun k2 => decide (k2 ≠ "" ∧ dirname k2 = k))).map
          (fun k2 => colSum c ((rawOf recs).filter (fun r => decide (k2 ∈ chain r.path)))) := by
      apply List.map_congr_left
      intro k2 _
      show colSum c ((framesJoin recs).filter (fun r => decide (r.path = k2))) = _
      unfold framesJoin
      exact aggLevels_colSum c (maxPathLen (rawOf recs) + 1) (rawOf recs) 0 (hpar_raw hpar)
        (Nat.lt_succ_self _) k2
    rw [h4]
    exact sum_keys_chain_eq recs hpar hclosed c k
  have h5 : ((fileChildRows recs k).map (colOf c ∘ withDepth)).sum
      = colSum c ((filesOf recs).filter (fun r => decide (r.path ≠ "" ∧ r.parent = k))) := by
    unfold colSum fileChildRows
    congr 1
    apply List.map_congr_left
    intro f _
    exact withDepth_colOf c f
  rw [h2, h3, h5]
  rw [show colSum c ((rawOf recs).filter (fun r => decide (k ∈ chain r.path)))
      = colSum c ((rawOf recs).filter (fun r => decide (r.path ≠ "" ∧ r.parent = k)))
        + colSum c ((rawOf recs).filter (fun r => decide (r.path ≠ "" ∧ k ∈ chain r.parent)))
    from sum_chain_split c (rawOf recs) (hpar_raw hpar) k]
  rw [colSum_split_kind (rawOf recs) (hkind_raw hkind)
      (fun r => decide (r.path ≠ "" ∧ r.parent = k)) c]
  rw [show (rawOf recs).filter (fun r => r.kind = "file") = filesOf recs from rfl]
  rw [show (rawOf recs).filter (fun r => r.kind = "dir") = dirs0Of recs from rfl]
  ring

theorem raw_paths_eq (recs : List Rec) :
    (rawOf recs).map Row.path = recs.map Rec.path := by
  unfold rawOf
  rw [List.map_map]
  apply List.map_congr_left
  intro e _
  rfl

theorem dirs0_childkeys_perm (recs : List Rec)
    (hpar : ∀ e ∈ recs, e.path ≠ "" → e.parent = dirname e.path)
    (hnodup : (recs.map Rec.path).Nodup)
    (hclosed : ∀ e ∈ recs, ∀ k ∈ chain e.path, ∃ e2 ∈ recs, e2.kind = "dir" ∧ e2.path = k)
    (k : String) :
    (((dirs0Of recs).filter (fun r => decide (r.path ≠ "" ∧ r.parent = k))).map Row.path).Perm
      (dirChildKeys recs k) := by
  have hnd1 : (((dirs0Of recs).filter (fun r => decide (r.path ≠ "" ∧ r.parent = k))).map
      Row.path).Nodup := by
    have hsub : ((dirs0Of recs).filter (fun r => decide (r.path ≠ "" ∧ r.parent = k))).Sublist
        (rawOf recs) :=
      (List.filter_sublist (dirs0Of recs)).trans (List.filter_sublist (rawOf recs))
    have hnd : ((rawOf recs).map Row.path).Nodup := by
      rw [raw_paths_eq]
      exact hnodup
    exact hnd.sublist (hsub.map Row.path)
  have hnd2 : (dirChildKeys recs k).Nodup := (keysOf_nodup _).filter _
  apply (List.perm_ext_iff_of_nodup hnd1 hnd2).mpr
  intro x
  constructor
  · intro hx
    rcases List.mem_map.mp hx with ⟨r, hr, rfl⟩
    rcases List.mem_filter.mp hr with ⟨hrd, hcond⟩
    rcases of_decide_eq_true hcond with ⟨hne, hp⟩
    have hrr : r ∈ rawOf recs := (List.mem_filter.mp hrd).1
    have hkey : r.path ∈ keysOf (dirsConcatOf recs) :=
      mem_keysOf.mpr ⟨r, List.mem_append.mpr (Or.inl hrd), rfl⟩
    refine List.mem_filter.mpr ⟨hkey, ?_⟩
    refine decide_eq_true ⟨hne, ?_⟩
    rw [← hpar_raw hpar r hrr hne]
    exact hp
  · intro hx
    rcases List.mem_filter.mp hx with ⟨hkey, hcond⟩
    rcases of_decide_eq_true hcond with ⟨hne, hd⟩
    rcases (mem_keys_dirsConcat hpar hclosed).mp hkey with ⟨e, he, hek, hep⟩
    have hmem : collect e ∈ dirs0Of recs := by
      unfold dirs0Of rawOf
      refine List.mem_filter.mpr ⟨List.mem_map_of_mem _ he, ?_⟩
      show decide ((collect e).kind = "dir") = true
      rw [show (collect e).kind = e.kind from rfl, hek]
      rfl
    refine List.mem_map.mpr ⟨collect e, List.mem_filter.mpr ⟨hmem, ?_⟩, hep⟩
    refine decide_eq_true ⟨?_, ?_⟩
    · show (collect e).path ≠ ""
      rw [show (collect e).path = e.path from rfl, hep]
      exact hne
    · show (collect e).parent = k
      have hepne : e.path ≠ "" := by
        rw [hep]
        exact hne
      rw [show (collect e).parent = e.parent from rfl, hpar e he hepne, hep]
      exact hd

theorem children_length (recs : List Rec) (path0 : String)
    (hpar : ∀ e ∈ recs, e.path ≠ "" → e.parent = dirname e.path)
    (hkind : ∀ e ∈ recs, e.kind = "file" ∨ e.kind = "dir")
    (hnodup : (recs.map Rec.path).Nodup)
    (hclosed : ∀ e ∈ recs, ∀ k ∈ chain e.path, ∃ e2 ∈ recs, e2.kind = "dir" ∧ e2.path = k)
    (hroot : ∃ e ∈ recs, e.kind = "dir" ∧ e.path = "")
    (hnodot : ∀ e ∈ recs, e.path ≠ "." ∧ "." ∉ chain e.path)
    (k : String) (hk : k ∈ keysOf (dirsConcatOf recs)) :
    (childrenOf (index_df recs path0) (withDepth (dirRowOf recs path0 k))).length
      = ((rawOf recs).filter (fun r => decide (r.path ≠ "" ∧ r.parent = k))).length := by
  rw [(childrenOf_perm recs path0 hpar hnodup hclosed hroot hnodot k hk).length_eq]
  rw [List.length_append, List.length_map, List.length_map]
  rw [length_split_kind (rawOf recs) (hkind_raw hkind)
      (fun r => decide (r.path ≠ "" ∧ r.parent = k))]
  rw [show (rawOf recs).filter (fun r => r.kind = "file") = filesOf recs from rfl]
  rw [show (rawOf recs).filter (fun r => r.kind = "dir") = dirs0Of recs from rfl]
  rw [← (dirs0_childkeys_perm recs hpar hnodup hclosed k).length_eq, List.length_map]
  rw [show fileChildRows recs k
      = (filesOf recs).filter (fun r => decide (r.path ≠ "" ∧ r.parent = k)) from rfl]
  omega

/-! ### Stage 4g: closed form for the directory mtimes -/

theorem keys_filter_ne (recs : List Rec) {k : String} (hk : k ∈ keysOf (dirsConcatOf recs)) :
    ((dirsConcatOf recs).filter (fun r => decide (r.path = k))).map (fun r => r.mtime) ≠ [] := by
  rcases mem_keysOf.mp hk with ⟨r, hr, hp⟩
  intro hnil
  rw [List.map_eq_nil_iff] at hnil
  have hmem : r ∈ (dirsConcatOf recs).filter (fun r => decide (r.path = k)) :=
    List.mem_filter.mpr ⟨hr, decide_eq_true hp⟩
  rw [hnil] at hmem
  cases hmem

theorem le_dirRow_mtime (recs : List Rec) (path0 : String)
    (hpar : ∀ e ∈ recs, e.path ≠ "" → e.parent = dirname e.path)
    (k2 : String) {e : Rec} (he : e ∈ recs)
    (hcase : (e.kind = "dir" ∧ e.path = k2) ∨ k2 ∈ chain e.path) :
    e.mtime ≤ (withDepth (dirRowOf recs path0 k2)).mtime := by
  rw [show (withDepth (dirRowOf recs path0 k2)).mtime = (dirRowOf recs path0 k2).mtime from rfl,
    dirRow_mtime, finalRow_mtime]
  rcases hcase with ⟨hkd, hpe⟩ | hchain
  · apply le_intMax
    refine List.mem_map.mpr ⟨collect e, List.mem_filter.mpr ⟨?_, ?_⟩, rfl⟩
    · refine List.mem_append.mpr (Or.inl ?_)
      refine List.mem_filter.mpr ⟨List.mem_map_of_mem _ he, ?_⟩
      show decide ((collect e).kind = "dir") = true
      rw [show (collect e).kind = e.kind from rfl, hkd]
      rfl
    · refine decide_eq_true ?_
      show (collect e).path = k2
      rw [show (collect e).path = e.path from rfl, hpe]
  · have hmm : e.mtime ∈ ((rawOf recs).filter
        (fun r => decide (k2 ∈ chain r.path))).map (fun r => r.mtime) :=
      List.mem_map.mpr ⟨collect e,
        List.mem_filter.mpr ⟨List.mem_map_of_mem _ he, decide_eq_true hchain⟩, rfl⟩
    rcases aggLevels_mtime_bwd (maxPathLen (rawOf recs) + 1) (rawOf recs) 0 (hpar_raw hpar)
        (Nat.lt_succ_self _) k2 e.mtime hmm with ⟨m2, hm2, hle⟩
    refine le_trans hle (le_intMax ?_)
    rcases List.mem_map.mp hm2 with ⟨r, hrf, hrm⟩
    rcases List.mem_filter.mp hrf with ⟨hrJ, hcond⟩
    exact List.mem_map.mpr ⟨r,
      List.mem_filter.mpr ⟨List.mem_append.mpr (Or.inr hrJ), hcond⟩, hrm⟩

theorem dirRow_mtime_le (recs : List Rec) (path0 : String)
    (hpar : ∀ e ∈ recs, e.path ≠ "" → e.parent = dirname e.path)
    {k2 : String} (hk2 : k2 ∈ keysOf (dirsConcatOf recs)) :
    ∃ e ∈ recs, ((e.kind = "dir" ∧ e.path = k2) ∨ k2 ∈ chain e.path)
      ∧ (withDepth (dirRowOf recs path0 k2)).mtime ≤ e.mtime := by
  rw [show (withDepth (dirRowOf recs path0 k2)).mtime = (dirRowOf recs path0 k2).mtime from rfl,
    dirRow_mtime, finalRow_mtime]
  have hmem := intMax_mem (keys_filter_ne recs hk2)
  rcases List.mem_map.mp hmem with ⟨r, hrf, hrm⟩
  rcases List.mem_filter.mp hrf with ⟨hrD, hcond⟩
  have hpath : r.path = k2 := of_decide_eq_true hcond
  rcases List.mem_append.mp hrD with hd | hJ
  · have hd2 := List.mem_filter.mp hd
    rcases List.mem_map.mp hd2.1 with ⟨e, he, rfl⟩
    refine ⟨e, he, Or.inl ⟨of_decide_eq_true hd2.2, hpath⟩, ?_⟩
    rw [← hrm]
    exact le_refl _
  · have hmm2 : r.mtime ∈ (((aggLevels (rawOf recs) 0 (maxPathLen (rawOf recs) + 1)).flatten).filter
        (fun r => decide (r.path = k2))).map (fun r => r.mtime) :=
      List.mem_map.mpr ⟨r, List.mem_filter.mpr ⟨hJ, hcond⟩, rfl⟩
    rcases aggLevels_mtime_fwd (maxPathLen (rawOf recs) + 1) (rawOf recs) 0 (hpar_raw hpar)
        (Nat.lt_succ_self _) k2 r.mtime hmm2 with ⟨m2, hm2, hle⟩
    rcases List.mem_map.mp hm2 with ⟨r2, hr2f, hr2m⟩
    rcases List.mem_filter.mp hr2f with ⟨hr2raw, hcond2⟩
    rcases List.mem_map.mp hr2raw with ⟨e, he, rfl⟩
    refine ⟨e, he, Or.inr (of_decide_eq_true hcond2), ?_⟩
    calc intMax (((dirsConcatOf recs).filter (fun r => decide (r.path = k2))).map
          (fun r => r.mtime))
        = r.mtime := hrm.symm
      _ ≤ m2 := hle
      _ = e.mtime := hr2m.symm

theorem children_mtime (recs : List Rec) (path0 : String)
    (hpar : ∀ e ∈ recs, e.path ≠ "" → e.parent = dirname e.path)
    (hkind : ∀ e ∈ recs, e.kind = "file" ∨ e.kind = "dir")
    (hnodup : (recs.map Rec.path).Nodup)
    (hclosed : ∀ e ∈ recs, ∀ k ∈ chain e.path, ∃ e2 ∈ recs, e2.kind = "dir" ∧ e2.path = k)
    (hroot : ∃ e ∈ recs, e.kind = "dir" ∧ e.path = "")
    (hnodot : ∀ e ∈ recs, e.path ≠ "." ∧ "." ∉ chain e.path)
    {k : String} (hk : k ∈ keysOf (dirsConcatOf recs)) {own : Rec} (hown : own ∈ recs)
    (hok : own.kind = "dir") (hop : own.path = k) :
    (withDepth (dirRowOf recs path0 k)).mtime
      = intMax (own.mtime
          :: (childrenOf (index_df recs path0) (withDepth (dirRowOf recs path0 k))).map
              (fun r => r.mtime)) := by
  subst hop
  have hperm := childrenOf_perm recs path0 hpar hnodup hclosed hroot hnodot own.path hk
  have hd0 : collect own ∈ dirs0Of recs := by
    refine List.mem_filter.mpr ⟨List.mem_map_of_mem _ hown, ?_⟩
    show decide ((collect own).kind = "dir") = true
    rw [show (collect own).kind = own.kind from rfl, hok]
    rfl
  have hstep1 : (withDepth (dirRowOf recs path0 own.path)).mtime
      = intMax (own.mtime :: ((rawOf recs).filter
          (fun r => decide (own.path ∈ chain r.path))).map (fun r => r.mtime)) := by
    rw [show (withDepth (dirRowOf recs path0 own.path)).mtime
        = (dirRowOf recs path0 own.path).mtime from rfl, dirRow_mtime, finalRow_mtime]
    apply intMax_eq_of_cofinal
    · intro m hm
      rcases List.mem_map.mp hm with ⟨r, hrf, hrm⟩
      rcases List.mem_filter.mp hrf with ⟨hrD, hcond⟩
      rcases List.mem_append.mp hrD with hd | hJ
      · have hsingle : r ∈ (dirs0Of recs).filter (fun r => decide (r.path = own.path)) :=
          List.mem_filter.mpr ⟨hd, hcond⟩
        rw [dirs0_filter_key hnodup hown hok] at hsingle
        rcases List.mem_singleton.mp hsingle with rfl
        exact ⟨own.mtime, List.mem_cons_self _ _, le_of_eq hrm.symm⟩
      · have hmm2 : m ∈ (((aggLevels (rawOf recs) 0
            (maxPathLen (rawOf recs) + 1)).flatten).filter
            (fun r => decide (r.path = own.path))).map (fun r => r.mtime) :=
          List.mem_map.mpr ⟨r, List.mem_filter.mpr ⟨hJ, hcond⟩, hrm⟩
        rcases aggLevels_mtime_fwd (maxPathLen (rawOf recs) + 1) (rawOf recs) 0
            (hpar_raw hpar) (Nat.lt_succ_self _) own.path m hmm2 with ⟨m2, hm2, hle⟩
        exact ⟨m2, List.mem_cons_of_mem _ hm2, hle⟩
    · intro m hm
      rcases List.mem_cons.mp hm with heq | hm2
      · refine ⟨m, ?_, le_refl m⟩
        rw [heq]
        exact List.mem_map.mpr ⟨collect own,
          List.mem_filter.mpr ⟨List.mem_append.mpr (Or.inl hd0), decide_eq_true rfl⟩, rfl⟩
      · rcases aggLevels_mtime_bwd (maxPathLen (rawOf recs) + 1) (rawOf recs) 0
            (hpar_raw hpar) (Nat.lt_succ_self _) own.path m hm2 with ⟨m2, hm2J, hle⟩
        rcases List.mem_map.mp hm2J with ⟨r, hrf, hrm⟩
        rcases List.mem_filter.mp hrf with ⟨hrJ, hcond⟩
        exact ⟨m2, List.mem_map.mpr ⟨r,
          List.mem_filter.mpr ⟨List.mem_append.mpr (Or.inr hrJ), hcond⟩, hrm⟩, hle⟩
  rw [hstep1]
  apply intMax_eq_of_cofinal
  · intro m hm
    rcases List.mem_cons.mp hm with heq | hm2
    · exact ⟨own.mtime, List.mem_cons_self _ _, le_of_eq heq⟩
    · rcases List.mem_map.mp hm2 with ⟨r, hrf, hrm⟩
      rcases List.mem_filter.mp hrf with ⟨hrraw, hcond⟩
      rcases List.mem_map.mp hrraw with ⟨e, he, rfl⟩
      have hchain : own.path ∈ chain e.path := of_decide_eq_true hcond
      have hpne : e.path ≠ "" := mem_chain_ne_empty hchain
      rw [chain_eq_cons hpne] at hchain
      rcases List.mem_cons.mp hchain with hdir | hdeep
      · rcases hkind e he with hf | hd
        · have hfC : collect e ∈ fileChildRows recs own.path := by
            refine List.mem_filter.mpr ⟨?_, ?_⟩
            · refine List.mem_filter.mpr ⟨List.mem_map_of_mem _ he, ?_⟩
              show decide ((collect e).kind = "file") = true
              rw [show (collect e).kind = e.kind from rfl, hf]
              rfl
            · refine decide_eq_true ⟨hpne, ?_⟩
              show (collect e).parent = own.path
              rw [show (collect e).parent = e.parent from rfl, hpar e he hpne]
              exact hdir.symm
          have hmemC : withDepth (collect e)
              ∈ childrenOf (index_df recs path0) (withDepth (dirRowOf recs path0 own.path)) :=
            hperm.mem_iff.mpr (List.mem_append.mpr
              (Or.inr (List.mem_map.mpr ⟨collect e, hfC, rfl⟩)))
          exact ⟨(withDepth (collect e)).mtime,
            List.mem_cons_of_mem _ (List.mem_map.mpr ⟨_, hmemC, rfl⟩),
            le_of_eq hrm.symm⟩
        · have hkey : e.path ∈ keysOf (dirsConcatOf recs) :=
            (mem_keys_dirsConcat hpar hclosed).mpr ⟨e, he, hd, rfl⟩
          have hinK : e.path ∈ dirChildKeys recs own.path :=
            List.mem_filter.mpr ⟨hkey, decide_eq_true ⟨hpne, hdir.symm⟩⟩
          have hmemC : withDepth (dirRowOf recs path0 e.path)
              ∈ childrenOf (index_df recs path0) (withDepth (dirRowOf recs path0 own.path)) :=
            hperm.mem_iff.mpr (List.mem_append.mpr
              (Or.inl (List.mem_map.mpr ⟨e.path, hinK, rfl⟩)))
          refine ⟨(withDepth (dirRowOf recs path0 e.path)).mtime,
            List.mem_cons_of_mem _ (List.mem_map.mpr ⟨_, hmemC, rfl⟩), ?_⟩
          rw [← hrm]
          exact le_dirRow_mtime recs path0 hpar e.path he (Or.inl ⟨hd, rfl⟩)
      · rcases exists_chain_Q.mpr ⟨hpne, hdeep⟩ with ⟨k2, hk2c, hk2ne, hk2d⟩
        have hk2key : k2 ∈ keysOf (dirsConcatOf recs) :=
          chain_sub_keys hpar hclosed (collect e) (List.mem_map_of_mem _ he) k2 hk2c
        have hinK : k2 ∈ dirChildKeys recs own.path :=
          List.mem_filter.mpr ⟨hk2key, decide_eq_true ⟨hk2ne, hk2d⟩⟩
        have hmemC : withDepth (dirRowOf recs path0 k2)
            ∈ childrenOf (index_df recs path0) (withDepth (dirRowOf recs path0 own.path)) :=
          hperm.mem_iff.mpr (List.mem_append.mpr
            (Or.inl (List.mem_map.mpr ⟨k2, hinK, rfl⟩)))
        refine ⟨(withDepth (dirRowOf recs path0 k2)).mtime,
          List.mem_cons_of_mem _ (List.mem_map.mpr ⟨_, hmemC, rfl⟩), ?_⟩
        rw [← hrm]
        exact le_dirRow_mtime recs path0 hpar k2 he (Or.inr hk2c)
  · intro m hm
    rcases List.mem_cons.mp hm with heq | hm2
    · exact ⟨own.mtime, List.mem_cons_self _ _, le_of_eq heq⟩
    · rcases List.mem_map.mp hm2 with ⟨r, hrC, hrm⟩
      have hrX := hperm.mem_iff.mp hrC
      rcases List.mem_append.mp hrX with hDir | hFile
      · rcases List.mem_map.mp hDir with ⟨k2, hk2K, rfl⟩
        rcases List.mem_filter.mp hk2K with ⟨hk2key, hcond2⟩
        rcases of_decide_eq_true hcond2 with ⟨hk2ne, hk2d⟩
        rcases dirRow_mtime_le recs path0 hpar hk2key with ⟨e, he, hcase, hle⟩
        have hkc : own.path ∈ chain e.path := by
          rcases hcase with ⟨_, hpe⟩ | hce
          · rw [hpe, ← hk2d]
            exact dirname_mem_chain hk2ne
          · exact chain_trans hce (hk2d ▸ dirname_mem_chain hk2ne)
        refine ⟨e.mtime, List.mem_cons_of_mem _ ?_, ?_⟩
        · exact List.mem_map.mpr ⟨collect e,
            List.mem_filter.mpr ⟨List.mem_map_of_mem _ he, decide_eq_true hkc⟩, rfl⟩
        · rw [← hrm]
          exact hle
      · rcases List.mem_map.mp hFile with ⟨f, hfC, rfl⟩
        rcases List.mem_filter.mp hfC with ⟨hfF, hcondf⟩
        rcases of_decide_eq_true hcondf with ⟨hfne, hfp⟩
        have hfraw : f ∈ rawOf recs := (List.mem_filter.mp hfF).1
        have hkc : own.path ∈ chain f.path := by
          rw [← hfp, hpar_raw hpar f hfraw hfne]
          exact dirname_mem_chain hfne
        refine ⟨f.mtime, List.mem_cons_of_mem _ (List.mem_map.mpr ⟨f,
          List.mem_filter.mpr ⟨hfraw, decide_eq_true hkc⟩, rfl⟩), ?_⟩
        rw [← hrm]
        exact le_refl _

/-- C2, amended: in every persisted table produced by index_df from walker
records whose parents are their dirnames and whose paths neither are "." nor
contain a "." ancestor, a row has depth 0 exactly when its path is ".", and
the "." row's parent is ""; the original claim's third equivalence (parent ""
implies depth 0) is refuted separately by a root-level file. -/
theorem c2_amended (recs : List Rec) (path0 : String)
    (hpar : ∀ e ∈ recs, e.path ≠ "" → e.parent = dirname e.path)
    (hnodot : ∀ e ∈ recs, e.path ≠ "." ∧ "." ∉ chain e.path) :
    ∀ r ∈ index_df recs path0,
      (r.depth = 0 ↔ r.path = ".") ∧ (r.path = "." → r.parent = "") := by
  intro r hr
  by_cases hraw : ((recs.map collect).isEmpty : Bool) = true
  · have heq : index_df recs path0 = [emptyRootRow path0] := by
      simp only [index_df]
      rw [hraw]
      rfl
    rw [heq] at hr
    rcases List.mem_singleton.mp hr with rfl
    exact ⟨⟨fun _ => rfl, fun _ => rfl⟩, fun _ => rfl⟩
  · have hraw2 : (recs.map collect).isEmpty = false := by
      revert hraw
      cases (recs.map collect).isEmpty <;> simp
    simp only [index_df] at hr
    rw [hraw2] at hr
    simp only [Bool.false_eq_true, if_false] at hr
    rw [show ((recs.map collect).filter (fun r => r.kind = "dir")
          ++ (aggLevels (recs.map collect) 0 (maxPathLen (recs.map collect) + 1)).flatten)
        = dirsConcatOf recs from rfl] at hr
    rw [show (recs.map collect).filter (fun r => r.kind = "file") = filesOf recs from rfl] at hr
    rw [show (((finalGroup (dirsConcatOf recs)).map fixTopParent).map fixRootPath).map
          (setUri path0)
        = (keysOf (dirsConcatOf recs)).map (dirRowOf recs path0) from by
      simp only [finalGroup, List.map_map]
      rfl] at hr
    rcases List.mem_map.mp hr with ⟨x, hx, rfl⟩
    have hx2 := (sortRows_perm _).mem_iff.mp hx
    refine ⟨?_, ?_⟩
    · rw [withDepth_depth, withDepth_path]
      exact depthOf_eq_zero
    · intro hdot
      rcases List.mem_append.mp hx2 with hxd | hxf
      · by_cases hdc : ((dirsConcatOf recs).isEmpty : Bool) = true
        · rw [if_pos hdc] at hxd
          rcases List.mem_singleton.mp hxd with rfl
          rfl
        · rw [if_neg hdc] at hxd
          rcases List.mem_map.mp hxd with ⟨k, hk, rfl⟩
          by_cases hk0 : k = ""
          · rw [withDepth_parent, dirRow_parent, if_pos hk0]
          · rw [withDepth_path, dirRow_path, if_neg hk0] at hdot
            exact absurd hdot (keys_no_dot hpar hnodot k hk).1
      · rcases List.mem_filter.mp hxf with ⟨hxraw, _⟩
        rcases List.mem_map.mp hxraw with ⟨e, he, rfl⟩
        rw [withDepth_path] at hdot
        exact absurd hdot (hnodot e he).1

/-- C3, amended: in a persisted table from hygienic walker records (parents
are dirnames, one record per path, kinds are file/dir, every ancestor of a
record is a dir record, a "" dir record roots the scan, and no path is or
passes through "."), every directory row d aggregates its own record PLUS its
children: size is the record's own size plus the children's sizes, mtime the
max of the record's own mtime and the children's, n_desc is 1 plus the
children's n_desc sum, and n_children the number of children; the original
claim omitted the directory's own size/mtime contribution and the root-file
parent convention, refuted separately. -/
theorem c3_amended (recs : List Rec) (path0 : String)
    (hpar : ∀ e ∈ recs, e.path ≠ "" → e.parent = dirname e.path)
    (hkind : ∀ e ∈ recs, e.kind = "file" ∨ e.kind = "dir")
    (hnodup : (recs.map Rec.path).Nodup)
    (hclosed : ∀ e ∈ recs, ∀ k ∈ chain e.path, ∃ e2 ∈ recs, e2.kind = "dir" ∧ e2.path = k)
    (hroot : ∃ e ∈ recs, e.kind = "dir" ∧ e.path = "")
    (hnodot : ∀ e ∈ recs, e.path ≠ "." ∧ "." ∉ chain e.path) :
    ∀ d ∈ index_df recs path0, d.kind = "dir" →
      ∃ own ∈ recs, own.kind = "dir"
        ∧ d.path = (if own.path = "" then "." else own.path)
        ∧ d.size = own.size
            + ((childrenOf (index_df recs path0) d).map (fun r => r.size)).sum
        ∧ d.mtime = intMax (own.mtime
            :: (childrenOf (index_df recs path0) d).map (fun r => r.mtime))
        ∧ d.n_desc = 1
            + ((childrenOf (index_df recs path0) d).map (fun r => r.n_desc)).sum
        ∧ d.n_children = ((childrenOf (index_df recs path0) d).length : Int) := by
  intro d hd hdk
  rw [index_df_eq_of_root recs path0 hroot] at hd
  rcases List.mem_map.mp hd with ⟨x, hx, rfl⟩
  have hx2 := (sortRows_perm _).mem_iff.mp hx
  rcases List.mem_append.mp hx2 with hxd | hxf
  · rcases List.mem_map.mp hxd with ⟨k, hk, rfl⟩
    rcases (mem_keys_dirsConcat hpar hclosed).mp hk with ⟨own, hown, hok, hop⟩
    subst hop
    refine ⟨own, hown, hok, ?_, ?_, ?_, ?_, ?_⟩
    · rw [withDepth_path, dirRow_path]
    · rw [show (withDepth (dirRowOf recs path0 own.path)).size
          = colOf AggCol.sizeC (withDepth (dirRowOf recs path0 own.path)) from rfl,
        withDepth_colOf, dirRow_colOf, finalRow_colOf recs hpar AggCol.sizeC own.path,
        dirs0_filter_key hnodup hown hok]
      rw [show ((childrenOf (index_df recs path0)
            (withDepth (dirRowOf recs path0 own.path))).map (fun r => r.size))
          = ((childrenOf (index_df recs path0)
            (withDepth (dirRowOf recs path0 own.path))).map (colOf AggCol.sizeC))
        from List.map_congr_left (fun r _ => rfl)]
      rw [children_colSum recs path0 hpar hkind hnodup hclosed hroot hnodot own.path hk
        AggCol.sizeC]
      rw [show colSum AggCol.sizeC [collect own] = own.size from by simp [colSum, colOf, collect]]
    · exact children_mtime recs path0 hpar hkind hnodup hclosed hroot hnodot hk hown hok rfl
    · rw [show (withDepth (dirRowOf recs path0 own.path)).n_desc
          = colOf AggCol.ndescC (withDepth (dirRowOf recs path0 own.path)) from rfl,
        withDepth_colOf, dirRow_colOf, finalRow_colOf recs hpar AggCol.ndescC own.path,
        dirs0_filter_key hnodup hown hok]
      rw [show ((childrenOf (index_df recs path0)
            (withDepth (dirRowOf recs path0 own.path))).map (fun r => r.n_desc))
          = ((childrenOf (index_df recs path0)
            (withDepth (dirRowOf recs path0 own.path))).map (colOf AggCol.ndescC))
        from List.map_congr_left (fun r _ => rfl)]
      rw [children_colSum recs path0 hpar hkind hnodup hclosed hroot hnodot own.path hk
        AggCol.ndescC]
      rw [show colSum AggCol.ndescC [collect own] = 1 from by simp [colSum, colOf, collect]]
    · rw [show (withDepth (dirRowOf recs path0 own.path)).n_children
          = (dirRowOf recs path0 own.path).n_children from rfl,
        dirRow_nchildren, finalRow_nchildren recs hpar own.path,
        dirs0_filter_key hnodup hown hok,
        children_length recs path0 hpar hkind hnodup hclosed hroot hnodot own.path hk]
      simp [collect]
  · rcases List.mem_filter.mp hxf with ⟨_, hxk⟩
    rw [withDepth_kind] at hdk
    rw [of_decide_eq_true hxk] at hdk
    exact absurd hdk (by decide)

theorem chainW_a : chain "a" = [""] := by
  rw [chain_eq_cons (by decide), show dirname "a" = "" from by decide, chain_eq_nil]

theorem chainW_ab : chain "a/b" = ["a", ""] := by
  rw [chain_eq_cons (by decide), show dirname "a/b" = "a" from by decide, chainW_a]

theorem chainW_c : chain "c" = [""] := by
  rw [chain_eq_cons (by decide), show dirname "c" = "" from by decide, chain_eq_nil]

theorem recsW_hpar : ∀ e ∈ recsW, e.path ≠ "" → e.parent = dirname e.path := by decide

theorem recsW_hkind : ∀ e ∈ recsW, e.kind = "file" ∨ e.kind = "dir" := by decide

theorem recsW_hnodup : (recsW.map Rec.path).Nodup := by decide

theorem recsW_hroot : ∃ e ∈ recsW, e.kind = "dir" ∧ e.path = "" :=
  ⟨⟨"", 100, 50, "dir", "", "s3://bkt"⟩, by decide, rfl, rfl⟩

theorem recsW_hnodot : ∀ e ∈ recsW, e.path ≠ "." ∧ "." ∉ chain e.path := by
  intro e he
  simp only [recsW, List.mem_cons, List.not_mem_nil, or_false] at he
  rcases he with rfl | rfl | rfl | rfl
  · refine ⟨by decide, ?_⟩
    show "." ∉ chain ""
    rw [chain_eq_nil]
    exact List.not_mem_nil _
  · refine ⟨by decide, ?_⟩
    show "." ∉ chain "a"
    rw [chainW_a]
    decide
  · refine ⟨by decide, ?_⟩
    show "." ∉ chain "a/b"
    rw [chainW_ab]
    decide
  · refine ⟨by decide, ?_⟩
    show "." ∉ chain "c"
    rw [chainW_c]
    decide

theorem recsW_hclosed :
    ∀ e ∈ recsW, ∀ k ∈ chain e.path, ∃ e2 ∈ recsW, e2.kind = "dir" ∧ e2.path = k := by
  intro e he
  simp only [recsW, List.mem_cons, List.not_mem_nil, or_false] at he
  rcases he with rfl | rfl | rfl | rfl
  · intro k hk
    have hk2 : k ∈ chain "" := hk
    rw [chain_eq_nil] at hk2
    cases hk2
  · intro k hk
    have hk2 : k ∈ chain "a" := hk
    rw [chainW_a] at hk2
    rcases List.mem_singleton.mp hk2 with rfl
    exact ⟨⟨"", 100, 50, "dir", "", "s3://bkt"⟩, by decide, rfl, rfl⟩
  · intro k hk
    have hk2 : k ∈ chain "a/b" := hk
    rw [chainW_ab] at hk2
    rcases List.mem_cons.mp hk2 with rfl | h
    · exact ⟨⟨"a", 10, 5, "dir", "", "s3://bkt/a"⟩, by decide, rfl, rfl⟩
    · rcases List.mem_singleton.mp h with rfl
      exact ⟨⟨"", 100, 50, "dir", "", "s3://bkt"⟩, by decide, rfl, rfl⟩
  · intro k hk
    have hk2 : k ∈ chain "c" := hk
    rw [chainW_c] at hk2
    rcases List.mem_singleton.mp hk2 with rfl
    exact ⟨⟨"", 100, 50, "dir", "", "s3://bkt"⟩, by decide, rfl, rfl⟩

/-- C2 witness: the amended invariant instantiated at the root row of a
concrete four-record scan. -/
theorem c2_amended_witness :
    (rootRowW.depth = 0 ↔ rootRowW.path = ".")
      ∧ (rootRowW.path = "." → rootRowW.parent = "") :=
  c2_amended recsW "s3://bkt" recsW_hpar recsW_hnodot rootRowW (by decide)

/-- C3 witness: the amended rollup identity instantiated at the root row of a
concrete four-record scan (own record 100 bytes plus children 13 and 5 gives
118; mtime max of 50, 7, 9 is 50; n_desc 1 + 2 + 1 = 4; two children). -/
theorem c3_amended_witness :
    ∃ own ∈ recsW, own.kind = "dir"
      ∧ rootRowW.path = (if own.path = "" then "." else own.path)
      ∧ rootRowW.size = own.size
          + ((childrenOf (index_df recsW "s3://bkt") rootRowW).map (fun r => r.size)).sum
      ∧ rootRowW.mtime = intMax (own.mtime
          :: (childrenOf (index_df recsW "s3://bkt") rootRowW).map (fun r => r.mtime))
      ∧ rootRowW.n_desc = 1
          + ((childrenOf (index_df recsW "s3://bkt") rootRowW).map (fun r => r.n_desc)).sum
      ∧ rootRowW.n_children = ((childrenOf (index_df recsW "s3://bkt") rootRowW).length : Int) :=
  c3_amended recsW "s3://bkt" recsW_hpar recsW_hkind recsW_hnodup recsW_hclosed recsW_hroot
    recsW_hnodot rootRowW (by decide) (by decide)

end DiskTree
